import Mathlib

set_option linter.unusedVariables false

/-! Verification development for the OllamaDocProcessor repository.

The repository has two Python sources: ollamadocprocessor.py, a command-line
pipeline, and gui_ollamadocprocessor.py, a GUI pipeline.  Both share the same
core: whitespace normalization, word-count chunking (chunk_text), a blocking
inference client (process_text_with_ollama), per-file orchestration with an
append-only output file, and, in the GUI, a cooperative cancellation flag.

The embedding below models strings as Lean String values (lists of chars),
the remote endpoint as a transport oracle, and the driver loop as a trace
of events.  Python ASCII whitespace and ASCII lowercasing are modelled; the
sources only compare ASCII extension strings and whitespace classes. -/

/-- Python whitespace class (for str.split with no argument, the regex class
of whitespace, and str.strip), restricted to ASCII whitespace. -/
def isPyWS (c : Char) : Bool :=
  c = ' ' || c = '\t' || c = '\n' || c = '\r' || c = '\x0b' || c = '\x0c'

/-- Accumulator pass of Python str.split with no argument: maximal runs of
non-whitespace characters become words, whitespace runs are discarded.
The accumulator holds the current word reversed. -/
def splitAux : List Char → List Char → List (List Char)
  | [], acc => if acc = [] then [] else [acc.reverse]
  | c :: cs, acc =>
    if isPyWS c then
      (if acc = [] then splitAux cs [] else acc.reverse :: splitAux cs [])
    else splitAux cs (c :: acc)

/-- Python text.split() on a character list. -/
def pySplitC (l : List Char) : List (List Char) := splitAux l []

/-- Python sep.join at the level of element lists: sep is placed between
consecutive elements. -/
def joinWith (sep : α) : List (List α) → List α
  | [] => []
  | [w] => w
  | w :: ws => w ++ sep :: joinWith sep ws

/-- One pass of re.sub collapsing each maximal whitespace run to a single
space.  The flag records whether the scanner is inside a whitespace run. -/
def collapseC : List Char → Bool → List Char
  | [], _ => []
  | c :: cs, inRun =>
    if isPyWS c then
      (if inRun then collapseC cs true else ' ' :: collapseC cs true)
    else c :: collapseC cs false

/-- Removal of leading whitespace (left half of str.strip). -/
def lstripC (l : List Char) : List Char := l.dropWhile isPyWS

/-- Removal of trailing whitespace (right half of str.strip). -/
def rstripC : List Char → List Char
  | [] => []
  | c :: cs =>
    let r := rstripC cs
    if r = [] then (if isPyWS c then [] else [c]) else c :: r

/-- The driver's normalization step, re.sub whitespace-collapse followed by
str.strip, on a character list. -/
def normalizeC (l : List Char) : List Char := lstripC (rstripC (collapseC l false))

/-- The driver's normalization of extracted text:
text = re.sub(whitespace-run, single-space, text).strip(). -/
def normalizeText (s : String) : String := String.mk (normalizeC s.data)

/-- Python len(text.split()). -/
def wordCount (s : String) : Nat := (pySplitC s.data).length

/-- Space-joining a list of chunk strings, modelling the single-space join
used to state the chunk-concatenation invariant. -/
def joinSpStr (l : List String) : String := String.mk (joinWith ' ' (l.map String.data))

/-- Loop body of chunk_text: words are accumulated into a buffer with a
running count; when the count reaches the limit the buffer is emitted and
reset; a final nonempty buffer is emitted after the loop.  The word type is
generic; the source instantiates it with words (strings). -/
def chunkAux (mw : Int) : List α → List α → Nat → List (List α)
  | [], buf, _ => if buf.isEmpty then [] else [buf]
  | w :: ws, buf, cnt =>
    if mw ≤ ((cnt : Int) + 1) then (buf ++ [w]) :: chunkAux mw ws [] 0
    else chunkAux mw ws (buf ++ [w]) (cnt + 1)

/-- chunk_text from both sources: split text into words, group them into
chunks of at most max_words words, and rejoin each group with single
spaces. -/
def chunk_text (text : String) (maxWords : Int) : List String :=
  (chunkAux maxWords (pySplitC text.data) [] 0).map (fun g => String.mk (joinWith ' ' g))

/-- ASCII lowercasing of one character, modelling Python str.lower on the
ASCII range. -/
def lowerChar (c : Char) : Char :=
  if 65 ≤ c.toNat ∧ c.toNat ≤ 90 then Char.ofNat (c.toNat + 32) else c

/-- ASCII lowercasing of a string. -/
def lowerString (s : String) : String := String.mk (s.data.map lowerChar)

/-- pathlib suffix of a file name on a character list: the segment from the
last dot, provided that dot is neither the first nor the last character;
otherwise the empty suffix. -/
def pySuffixC (l : List Char) : List Char :=
  let rev := l.reverse
  let after := rev.takeWhile (fun c => c != '.')
  match rev.dropWhile (fun c => c != '.') with
  | [] => []
  | _ :: restRev => if after = [] ∨ restRev = [] then [] else '.' :: after.reverse

/-- pathlib Path(name).suffix. -/
def pySuffix (name : String) : String := String.mk (pySuffixC name.data)

/-- The list of supported extensions from the sources. -/
def extsList : List String := [".txt", ".pdf", ".doc", ".docx"]

/-- file_path.suffix.lower() in the list of supported extensions. -/
def supportedExt (name : String) : Bool := extsList.contains (lowerString (pySuffix name))

/-- Whether a name matches the glob pattern star-dot-star used for directory
enumeration: pathlib translates it through fnmatch, so it matches exactly the
names containing at least one dot (pathlib does not special-case names that
begin with a dot). -/
def globStarDotStar (name : String) : Bool := decide (('.' : Char) ∈ name.data)

/-- The per-entry filter applied by both drivers inside the loop:
supported extension (case-insensitive) and not exactly out.txt. -/
def passesFilter (name : String) : Bool := supportedExt name && name != "out.txt"

/-- Python str.strip() on a character list. -/
def stripWS (l : List Char) : List Char := lstripC (rstripC l)

/-- Python str.strip() on a string. -/
def pyStrip (s : String) : String := String.mk (stripWS s.data)

/-- Value of a nonempty all-digit character list, or none.  Helper for the
model of Python int(str). -/
def digitsVal : List Char → Option Nat
  | [] => none
  | ds =>
    if ds.all Char.isDigit then
      some (ds.foldl (fun a c => a * 10 + (c.toNat - 48)) 0)
    else none

/-- Model of Python int(str): surrounding whitespace is stripped, an optional
sign is accepted, and the remainder must be one or more digits (digit-group
underscores are not modelled).  none models the ValueError. -/
def pyInt (s : String) : Option Int :=
  match stripWS s.data with
  | '-' :: ds => (digitsVal ds).map (fun n => -(n : Int))
  | '+' :: ds => (digitsVal ds).map (fun n => (n : Int))
  | ds => (digitsVal ds).map (fun n => (n : Int))

/-- The raw GUI inputs read by DocumentProcessorGUI.start_processing. -/
structure GuiInputs where
  targetDir : String
  promptRaw : String
  maxWordsStr : String
  model : String
  apiUrl : String

/-- A validated run configuration. -/
structure RunConfig where
  targetDir : String
  prompt : String
  maxWords : Int
  model : String
  apiUrl : String
deriving DecidableEq, Repr

/-- DocumentProcessorGUI.start_processing input validation: the prompt is
stripped, Max Words must parse as an integer (else an error dialog and no
run), and the directory, prompt, model and API URL must be nonempty (else an
error dialog and no run).  some config means the run starts. -/
def start_processing (g : GuiInputs) : Option RunConfig :=
  let prompt := pyStrip g.promptRaw
  match pyInt g.maxWordsStr with
  | none => none
  | some mw =>
    if g.targetDir = "" ∨ prompt = "" ∨ g.model = "" ∨ g.apiUrl = "" then none
    else some ⟨g.targetDir, prompt, mw, g.model, g.apiUrl⟩

/-- The request assembled by process_text_with_ollama. -/
structure OllamaRequest where
  urlRoute : String
  authHeader : Option String
  model : String
  prompt : String
  stream : Bool
  temperature : Float
  numCtx : Nat

/-- Outcome of the single synchronous POST, as visible to the client code:
either the requests library raises a RequestException (connection failure),
or a response arrives with a status code and a body that parses as a JSON
object of string fields or does not parse at all. -/
inductive HttpOutcome where
  | requestError (msg : String)
  | response (status : Nat) (jsonBody : Option (List (String × String)))

/-- The request body and headers built by process_text_with_ollama. -/
def ollamaRequest (text prompt url model : String) (temperature : Float)
    (apiKey : Option String) : OllamaRequest :=
  { urlRoute := url ++ "/api/generate"
    authHeader := apiKey.map (fun k => "Bearer " ++ k)
    model := model
    prompt := prompt ++ "\n\nText: " ++ text
    stream := false
    temperature := temperature
    numCtx := 20480 }

/-- Model of the message of the HTTPError raised by raise_for_status. -/
def statusMessage (st : Nat) : String :=
  if st < 500 then toString st ++ " Client Error" else toString st ++ " Server Error"

/-- Model of the message of the JSONDecodeError raised by response.json on a
body that is not JSON. -/
def jsonDecodeMessage : String := "Expecting value: line 1 column 1 (char 0)"

/-- Model of the message of the KeyError raised by indexing the parsed JSON
dict with the key response when that key is absent. -/
def keyErrorMessage : String := "'response'"

/-- process_text_with_ollama from both sources, against a transport oracle.
A RequestException from the POST, an HTTPError from raise_for_status
(status 400 to 599), and a JSONDecodeError from response.json (non-JSON
body; a RequestException subclass in the requests library) are caught and
turned into the error string; a KeyError from the missing response field is
not a RequestException and propagates, modelled as Except.error. -/
def process_text_with_ollama (transport : OllamaRequest → HttpOutcome)
    (text prompt url model : String) (temperature : Float) (apiKey : Option String) :
    Except String String :=
  match transport (ollamaRequest text prompt url model temperature apiKey) with
  | HttpOutcome.requestError m => Except.ok ("Error processing chunk: " ++ m)
  | HttpOutcome.response st body =>
    if 400 ≤ st ∧ st ≤ 599 then
      Except.ok ("Error processing chunk: " ++ statusMessage st)
    else
      match body with
      | none => Except.ok ("Error processing chunk: " ++ jsonDecodeMessage)
      | some kvs =>
        match kvs.lookup ("response") with
        | some v => Except.ok v
        | none => Except.error keyErrorMessage

/-- A directory entry together with the text its extractor produces.
Extraction itself is file input and is modelled by this given text. -/
structure GFile where
  name : String
  text : String
deriving DecidableEq, Repr

/-- Observable events of a pipeline run.  read is a read of the cancellation
flag; started marks the per-file processing message; dispatched is one
inference call (whole document when the index is none, chunk i when some i)
carrying the unit text and some body when the client returned, none when it
raised; appended is one output record; failed is the per-file exception
handler. -/
inductive Ev where
  | read (v : Bool)
  | started (name : String)
  | dispatched (name : String) (idx : Option Nat) (text : String) (res : Option String)
  | appended (name : String) (idx : Option Nat) (body : String)
  | failed (name : String) (msg : String)
deriving DecidableEq, Repr

/-- The chunked-inference loop of process_documents: before each chunk the
cancellation flag is read (the k-th read observes flag k); if set, the inner
loop breaks; otherwise the chunk is dispatched and, if the client returned,
its record is appended; if the client raised, the exception aborts the rest
of the file. -/
def runChunks (infer : String → Except String String) (flag : Nat → Bool) (name : String) :
    List String → Nat → Nat → List Ev × Nat
  | [], _, k => ([], k)
  | c :: cs, i, k =>
    if flag k then ([Ev.read true], k + 1)
    else
      match infer c with
      | Except.ok b =>
        let p := runChunks infer flag name cs (i + 1) (k + 1)
        (Ev.read false :: Ev.dispatched name (some i) c (some b) ::
          Ev.appended name (some i) b :: p.1, p.2)
      | Except.error e =>
        (Ev.read false :: Ev.dispatched name (some i) c none :: [Ev.failed name e], k + 1)

/-- Per-file body of both drivers: filter by extension and output-file name;
skip on empty extracted text; normalize; send the whole document as one unit
when the word count is at most max_words, else chunk and loop. -/
def processFile (infer : String → Except String String) (flag : Nat → Bool)
    (mw : Int) (f : GFile) (k : Nat) : List Ev × Nat :=
  if passesFilter f.name = false then ([], k)
  else if f.text = "" then ([Ev.started f.name], k)
  else
    let t := normalizeText f.text
    if (wordCount t : Int) ≤ mw then
      match infer t with
      | Except.ok b =>
        ([Ev.started f.name, Ev.dispatched f.name none t (some b),
          Ev.appended f.name none b], k)
      | Except.error e =>
        ([Ev.started f.name, Ev.dispatched f.name none t none, Ev.failed f.name e], k)
    else
      let p := runChunks infer flag f.name (chunk_text t mw) 1 k
      (Ev.started f.name :: p.1, p.2)

/-- The driver loop over enumerated entries: before each entry the
cancellation flag is read; if set, the loop breaks; otherwise the entry is
processed.  The command-line driver is the same loop with a never-set
flag. -/
def runFiles (infer : String → Except String String) (flag : Nat → Bool) (mw : Int) :
    List GFile → Nat → List Ev
  | [], _ => []
  | f :: fs, k =>
    if flag k then [Ev.read true]
    else
      let p := processFile infer flag mw f (k + 1)
      Ev.read false :: (p.1 ++ runFiles infer flag mw fs p.2)

/-- process_documents: glob the directory entries with the star-dot-star
pattern, then run the driver loop from the first flag read. -/
def process_documents (infer : String → Except String String) (flag : Nat → Bool)
    (mw : Int) (entries : List GFile) : List Ev :=
  runFiles infer flag mw (entries.filter (fun f => globStarDotStar f.name)) 0

/-- Whether an event is an inference dispatch. -/
def isDispatchEv : Ev → Bool
  | Ev.dispatched _ _ _ _ => true
  | _ => false

/-- Checks that no dispatch event follows a read of a set cancellation flag
anywhere in a trace. -/
def noDispatchFrom : List Ev → Bool
  | [] => true
  | Ev.read true :: rest => rest.all (fun e => !isDispatchEv e)
  | _ :: rest => noDispatchFrom rest

/-- Checks that every dispatch whose client call returned is immediately
followed by the matching appended record. -/
def pairedOk : List Ev → Bool
  | [] => true
  | Ev.dispatched n i _ (some b) :: rest =>
    (match rest with
     | Ev.appended n2 i2 b2 :: rest2 =>
       if n = n2 ∧ i = i2 ∧ b = b2 then pairedOk rest2 else false
     | _ => false)
  | _ :: rest => pairedOk rest

/-- Checks that every started event is immediately preceded by a read of an
unset cancellation flag. -/
def chkStarted : List Ev → Bool
  | [] => true
  | Ev.read false :: Ev.started _ :: rest => chkStarted rest
  | Ev.started _ :: _ => false
  | _ :: rest => chkStarted rest

/-- The dispatched units of a trace, in order: file name with none for a
whole-document unit or some i for chunk i. -/
def unitsOf (evs : List Ev) : List (String × Option Nat) :=
  evs.filterMap (fun e =>
    match e with
    | Ev.dispatched n i _ _ => some (n, i)
    | _ => none)

/-- The texts of the dispatched units of a trace, in order. -/
def dispatchTexts (evs : List Ev) : List String :=
  evs.filterMap (fun e =>
    match e with
    | Ev.dispatched _ _ t _ => some t
    | _ => none)

/-- The appended output records of a trace, in order. -/
def appendsOf (evs : List Ev) : List (String × Option Nat × String) :=
  evs.filterMap (fun e =>
    match e with
    | Ev.appended n i b => some (n, i, b)
    | _ => none)

/-- The names of files whose processing started, in order. -/
def startedNames (evs : List Ev) : List String :=
  evs.filterMap (fun e =>
    match e with
    | Ev.started n => some n
    | _ => none)

/-- The record header written before each response. -/
def recordHeader (name : String) (idx : Option Nat) : String :=
  match idx with
  | none => "\n\n=== Response for " ++ name ++ " ===\n"
  | some i => "\n\n=== Response for " ++ name ++ " (chunk " ++ toString i ++ ") ===\n"

/-- The content of the output file after replaying the appends of a trace on
top of its initial content. -/
def outputOf (init : String) (evs : List Ev) : String :=
  evs.foldl (fun acc e =>
    match e with
    | Ev.appended n i b => acc ++ recordHeader n i ++ b
    | _ => acc) init

/-- Initial out.txt content in the command-line driver:
output_file.touch(exist_ok=True) creates the file empty when absent and
leaves existing content in place. -/
def cliInitOutput (prev : Option String) : String := prev.getD ""

/-- Initial out.txt content in the GUI driver: touch followed by opening in
write mode, which truncates whatever was there. -/
def guiInitOutput (prev : Option String) : String := ""

/-- Final out.txt content of one GUI run. -/
def guiRunOutput (prev : Option String) (infer : String → Except String String)
    (flag : Nat → Bool) (mw : Int) (entries : List GFile) : String :=
  outputOf (guiInitOutput prev) (process_documents infer flag mw entries)

/-- Final out.txt content of one command-line run (no cancellation flag). -/
def cliRunOutput (prev : Option String) (infer : String → Except String String)
    (mw : Int) (entries : List GFile) : String :=
  outputOf (cliInitOutput prev) (process_documents infer (fun _ => false) mw entries)

/-- Spec-side enumeration predicate, written from the words of the claim: an
entry is selected exactly when its extension is one of .txt, .pdf, .doc,
.docx compared case-insensitively (the lowercased name ends with the
extension and the name is strictly longer than it, so the stem is nonempty)
and the name is not exactly out.txt. -/
def specSelectsEntry (name : String) : Bool :=
  (extsList.any (fun e =>
    e.data.isSuffixOf (name.data.map lowerChar) && decide (e.data.length < name.data.length)))
  && name != "out.txt"

/-! Word-structure lemmas: the words produced by splitting are nonempty and
whitespace-free, splitting inverts space-joining on such words, and the
normalization step equals space-joining the split words. -/

lemma rstripC_cons (c : Char) (cs : List Char) :
    rstripC (c :: cs) =
      if rstripC cs = [] then (if isPyWS c then [] else [c]) else c :: rstripC cs := rfl

lemma collapseC_cons_false (c : Char) (cs : List Char) :
    collapseC (c :: cs) false =
      if isPyWS c then ' ' :: collapseC cs true else c :: collapseC cs false := by
  by_cases h : isPyWS c = true <;> simp [collapseC, h]

lemma collapseC_cons_true (c : Char) (cs : List Char) :
    collapseC (c :: cs) true =
      if isPyWS c then collapseC cs true else c :: collapseC cs false := by
  by_cases h : isPyWS c = true <;> simp [collapseC, h]

lemma splitAux_cons (c : Char) (cs acc : List Char) :
    splitAux (c :: cs) acc =
      if isPyWS c then (if acc = [] then splitAux cs [] else acc.reverse :: splitAux cs [])
      else splitAux cs (c :: acc) := rfl

lemma splitAux_sound : ∀ (l : List Char) (acc : List Char),
    (∀ c ∈ acc, isPyWS c = false) →
    ∀ w ∈ splitAux l acc, w ≠ [] ∧ ∀ c ∈ w, isPyWS c = false := by
  intro l
  induction l with
  | nil =>
    intro acc hacc w hw
    by_cases h : acc = []
    · simp [splitAux, h] at hw
    · simp [splitAux, h] at hw
      subst hw
      constructor
      · simpa using h
      · intro c hc
        exact hacc c (List.mem_reverse.mp hc)
  | cons c cs ih =>
    intro acc hacc w hw
    rw [splitAux_cons] at hw
    by_cases hws : isPyWS c = true
    · rw [if_pos hws] at hw
      by_cases h : acc = []
      · rw [if_pos h] at hw
        exact ih [] (by simp) w hw
      · rw [if_neg h] at hw
        rcases List.mem_cons.mp hw with hx | hx
        · subst hx
          refine ⟨by simpa using h, ?_⟩
          intro d hd
          exact hacc d (List.mem_reverse.mp hd)
        · exact ih [] (by simp) w hx
    · rw [if_neg hws] at hw
      refine ih (c :: acc) ?_ w hw
      intro d hd
      rcases List.mem_cons.mp hd with h | h
      · subst h; simpa using hws
      · exact hacc d h

lemma pySplitC_sound (l : List Char) :
    ∀ w ∈ pySplitC l, w ≠ [] ∧ ∀ c ∈ w, isPyWS c = false :=
  splitAux_sound l [] (by simp)

lemma splitAux_append_word : ∀ (w l acc : List Char),
    (∀ c ∈ w, isPyWS c = false) →
    splitAux (w ++ l) acc = splitAux l (w.reverse ++ acc) := by
  intro w
  induction w with
  | nil => intro l acc _; simp
  | cons d w ih =>
    intro l acc h
    have hd : isPyWS d = false := h d (by simp)
    have hstep : (d :: w) ++ l = d :: (w ++ l) := rfl
    rw [hstep, splitAux_cons, if_neg (by simp [hd]),
      ih l (d :: acc) (fun c hc => h c (by simp [hc]))]
    simp

lemma joinWith_eq_nil {ws : List (List Char)} (h : ∀ w ∈ ws, w ≠ []) :
    joinWith ' ' ws = [] ↔ ws = [] := by
  cases ws with
  | nil => simp [joinWith]
  | cons w ws =>
    cases ws with
    | nil =>
      simp only [joinWith]
      constructor
      · intro hw; exact absurd hw (h w (by simp))
      · intro hw; cases hw
    | cons w2 ws =>
      simp only [joinWith]
      constructor
      · intro hw
        exact absurd (List.append_eq_nil.mp hw).1 (h w (by simp))
      · intro hw; cases hw

lemma pySplitC_joinWith : ∀ (ws : List (List Char)),
    (∀ w ∈ ws, w ≠ [] ∧ ∀ c ∈ w, isPyWS c = false) →
    pySplitC (joinWith ' ' ws) = ws := by
  intro ws
  induction ws with
  | nil => intro _; rfl
  | cons w ws ih =>
    intro h
    have hw := h w (by simp)
    cases ws with
    | nil =>
      show splitAux (joinWith ' ' [w]) [] = [w]
      have hjw : joinWith ' ' [w] = w ++ [] := by simp [joinWith]
      rw [hjw, splitAux_append_word w [] [] hw.2]
      simp [splitAux, hw.1]
    | cons w2 ws2 =>
      show splitAux (joinWith ' ' (w :: w2 :: ws2)) [] = w :: w2 :: ws2
      have hj : joinWith ' ' (w :: w2 :: ws2) = w ++ ' ' :: joinWith ' ' (w2 :: ws2) := rfl
      rw [hj, splitAux_append_word w (' ' :: joinWith ' ' (w2 :: ws2)) [] hw.2]
      rw [splitAux_cons, if_pos (by decide), if_neg (by simpa using hw.1)]
      have hrec := ih (fun x hx => h x (by simp [hx]))
      show (w.reverse ++ []).reverse :: splitAux (joinWith ' ' (w2 :: ws2)) [] = _
      rw [show splitAux (joinWith ' ' (w2 :: ws2)) [] = pySplitC (joinWith ' ' (w2 :: ws2)) from rfl,
        hrec]
      simp

lemma rstripC_append : ∀ (a b : List Char),
    rstripC (a ++ b) = if rstripC b = [] then rstripC a else a ++ rstripC b := by
  intro a b
  induction a with
  | nil =>
    by_cases h : rstripC b = [] <;> simp [h, rstripC]
  | cons x a ih =>
    by_cases h : rstripC b = []
    · simp only [h, if_true] at ih ⊢
      show rstripC (x :: (a ++ b)) = rstripC (x :: a)
      rw [rstripC_cons, rstripC_cons, ih]
    · simp only [h, if_false] at ih ⊢
      show rstripC (x :: (a ++ b)) = (x :: a) ++ rstripC b
      rw [rstripC_cons, ih]
      have hne : a ++ rstripC b ≠ [] := by
        intro hc
        exact h (List.append_eq_nil.mp hc).2
      simp [hne]

lemma rstripC_nonws : ∀ (v : List Char), (∀ c ∈ v, isPyWS c = false) → rstripC v = v := by
  intro v
  induction v with
  | nil => intro _; rfl
  | cons x v ih =>
    intro h
    have hx : isPyWS x = false := h x (by simp)
    have hv : rstripC v = v := ih (fun c hc => h c (by simp [hc]))
    rw [rstripC_cons, hv]
    cases v with
    | nil => simp [hx]
    | cons y v2 => simp

lemma lstrip_joinWith {ws : List (List Char)}
    (h : ∀ w ∈ ws, w ≠ [] ∧ ∀ c ∈ w, isPyWS c = false) :
    lstripC (joinWith ' ' ws) = joinWith ' ' ws := by
  cases ws with
  | nil => rfl
  | cons w ws =>
    have hw := h w (by simp)
    rcases w with _ | ⟨d, w2⟩
    · exact absurd rfl hw.1
    have hd : isPyWS d = false := hw.2 d (by simp)
    cases ws with
    | nil => simp [joinWith, lstripC, hd]
    | cons w3 ws3 =>
      show lstripC ((d :: w2) ++ ' ' :: joinWith ' ' (w3 :: ws3)) =
        (d :: w2) ++ ' ' :: joinWith ' ' (w3 :: ws3)
      simp [lstripC, hd]

lemma collapse_spec : ∀ l : List Char,
    (rstripC (collapseC l true) = joinWith ' ' (splitAux l []))
    ∧ (∀ acc, acc ≠ [] → (∀ c ∈ acc, isPyWS c = false) →
        rstripC (acc.reverse ++ collapseC l false) = joinWith ' ' (splitAux l acc)) := by
  intro l
  induction l with
  | nil =>
    refine ⟨rfl, ?_⟩
    intro acc hne hacc
    have hrev : rstripC acc.reverse = acc.reverse :=
      rstripC_nonws acc.reverse (fun c hc => hacc c (List.mem_reverse.mp hc))
    show rstripC (acc.reverse ++ []) = joinWith ' ' (if acc = [] then [] else [acc.reverse])
    rw [List.append_nil, hrev, if_neg hne]
    rfl
  | cons c cs ih =>
    obtain ⟨ih1, ih2⟩ := ih
    by_cases hws : isPyWS c = true
    · constructor
      · rw [collapseC_cons_true, if_pos hws, splitAux_cons, if_pos hws, if_pos rfl]
        exact ih1
      · intro acc hne hacc
        rw [collapseC_cons_false, if_pos hws, splitAux_cons, if_pos hws, if_neg hne]
        rw [rstripC_append]
        have hrev : rstripC acc.reverse = acc.reverse :=
          rstripC_nonws acc.reverse (fun d hd => hacc d (List.mem_reverse.mp hd))
        have hsp : isPyWS ' ' = true := by decide
        have hr : rstripC (' ' :: collapseC cs true) =
            if rstripC (collapseC cs true) = [] then []
            else ' ' :: rstripC (collapseC cs true) := by
          rw [rstripC_cons]
          by_cases h0 : rstripC (collapseC cs true) = [] <;> simp [h0, hsp]
        rw [hr, ih1]
        have hwords := splitAux_sound cs [] (by simp)
        have hjn := joinWith_eq_nil (fun w hw => (hwords w hw).1)
        by_cases hgnil : joinWith ' ' (splitAux cs []) = []
        · have hsnil : splitAux cs [] = [] := hjn.mp hgnil
          rw [hgnil, hsnil]
          simp [hrev, joinWith]
        · rw [if_neg hgnil, if_neg (by simp)]
          cases hsx : splitAux cs [] with
          | nil => exact absurd (hjn.mpr hsx) hgnil
          | cons s ss => simp [joinWith]
    · constructor
      · rw [collapseC_cons_true, if_neg hws, splitAux_cons, if_neg hws]
        rw [show (c :: collapseC cs false : List Char) = [c].reverse ++ collapseC cs false
          from by simp]
        exact ih2 [c] (by simp) (by intro d hd; simp at hd; subst hd; simpa using hws)
      · intro acc hne hacc
        rw [collapseC_cons_false, if_neg hws, splitAux_cons, if_neg hws]
        rw [show acc.reverse ++ c :: collapseC cs false =
          (c :: acc).reverse ++ collapseC cs false from by simp]
        refine ih2 (c :: acc) (by simp) ?_
        intro d hd
        rcases List.mem_cons.mp hd with h | h
        · subst h; simpa using hws
        · exact hacc d h

lemma normalizeC_eq_join : ∀ l : List Char,
    normalizeC l = joinWith ' ' (pySplitC l) := by
  intro l
  cases l with
  | nil => rfl
  | cons c cs =>
    show lstripC (rstripC (collapseC (c :: cs) false)) = joinWith ' ' (splitAux (c :: cs) [])
    rw [splitAux_cons]
    by_cases hws : isPyWS c = true
    · rw [collapseC_cons_false, if_pos hws, if_pos hws, if_pos rfl]
      have hsp : isPyWS ' ' = true := by decide
      have hr : rstripC (' ' :: collapseC cs true) =
          if rstripC (collapseC cs true) = [] then []
          else ' ' :: rstripC (collapseC cs true) := by
        rw [rstripC_cons]
        by_cases h0 : rstripC (collapseC cs true) = [] <;> simp [h0, hsp]
      rw [hr, (collapse_spec cs).1]
      by_cases hgnil : joinWith ' ' (splitAux cs []) = []
      · rw [if_pos hgnil, hgnil]
        rfl
      · rw [if_neg hgnil]
        show lstripC (' ' :: joinWith ' ' (splitAux cs [])) = joinWith ' ' (splitAux cs [])
        rw [show lstripC (' ' :: joinWith ' ' (splitAux cs [])) =
          lstripC (joinWith ' ' (splitAux cs [])) from by simp [lstripC, hsp]]
        exact lstrip_joinWith (splitAux_sound cs [] (by simp))
    · rw [collapseC_cons_false, if_neg hws, if_neg hws]
      rw [show (c :: collapseC cs false : List Char) = [c].reverse ++ collapseC cs false
        from by simp]
      rw [(collapse_spec cs).2 [c] (by simp)
        (by intro d hd; simp at hd; subst hd; simpa using hws)]
      exact lstrip_joinWith (splitAux_sound cs [c]
        (by intro d hd; simp at hd; subst hd; simpa using hws))

/-! Chunker lemmas: concatenating the groups recovers the word list, group
sizes are bounded by the limit with all but the last exactly full, and the
group count is the ceiling of the word count over the limit. -/

lemma joinWith_cons (sep : α) (w : List α) {ws : List (List α)} (h : ws ≠ []) :
    joinWith sep (w :: ws) = w ++ sep :: joinWith sep ws := by
  cases ws with
  | nil => exact absurd rfl h
  | cons w2 ws2 => rfl

lemma joinWith_append (sep : α) : ∀ (a b : List (List α)), a ≠ [] → b ≠ [] →
    joinWith sep (a ++ b) = joinWith sep a ++ sep :: joinWith sep b := by
  intro a
  induction a with
  | nil => intro b h _; exact absurd rfl h
  | cons w a ih =>
    intro b _ hb
    cases a with
    | nil =>
      rw [List.singleton_append, joinWith_cons sep w hb]
      rfl
    | cons w2 a2 =>
      have hab : (w2 :: a2) ++ b ≠ [] := by simp
      rw [List.cons_append, joinWith_cons sep w hab, ih b (by simp) hb,
        joinWith_cons sep w (by simp)]
      simp

lemma joinWith_map_flatten : ∀ (gs : List (List (List Char))), (∀ g ∈ gs, g ≠ []) →
    joinWith ' ' (gs.map (fun g => joinWith ' ' g)) = joinWith ' ' gs.flatten := by
  intro gs
  induction gs with
  | nil => intro _; rfl
  | cons g gs ih =>
    intro h
    cases gs with
    | nil => simp [joinWith]
    | cons g2 gs2 =>
      have hg : g ≠ [] := h g (by simp)
      have hg2 : g2 ≠ [] := h g2 (by simp)
      have hflat_ne : (g2 :: gs2).flatten ≠ [] := by
        cases g2 with
        | nil => exact absurd rfl hg2
        | cons x g2t => simp
      rw [List.map_cons, joinWith_cons ' ' (joinWith ' ' g) (by simp),
        ih (fun x hx => h x (by simp [hx]))]
      rw [show (g :: g2 :: gs2).flatten = g ++ (g2 :: gs2).flatten from rfl]
      rw [joinWith_append ' ' g (g2 :: gs2).flatten hg hflat_ne]

lemma chunkAux_flatten (mw : Int) : ∀ (ws buf : List α) (cnt : Nat),
    (chunkAux mw ws buf cnt).flatten = buf ++ ws := by
  intro ws
  induction ws with
  | nil =>
    intro buf cnt
    cases buf with
    | nil => simp [chunkAux]
    | cons x b =>
      have hc : chunkAux mw ([] : List α) (x :: b) cnt = [x :: b] := rfl
      rw [hc]
      simp
  | cons w ws ih =>
    intro buf cnt
    by_cases h : mw ≤ ((cnt : Int) + 1)
    · simp only [chunkAux, if_pos h, List.flatten_cons, ih [] 0]
      simp
    · simp only [chunkAux, if_neg h, ih (buf ++ [w]) (cnt + 1)]
      simp

lemma chunkAux_groups (mw : Int) (hmw : 0 < mw) : ∀ (ws buf : List α) (cnt : Nat),
    cnt = buf.length → (cnt : Int) < mw →
    ((∀ g ∈ chunkAux mw ws buf cnt, g ≠ [] ∧ (g.length : Int) ≤ mw)
    ∧ (∀ g ∈ (chunkAux mw ws buf cnt).dropLast, (g.length : Int) = mw)
    ∧ (chunkAux mw ws buf cnt).length = (cnt + ws.length + mw.toNat - 1) / mw.toNat) := by
  have hm1 : 1 ≤ mw.toNat := by omega
  intro ws
  induction ws with
  | nil =>
    intro buf cnt hcnt hlt
    cases buf with
    | nil =>
      have hc0 : cnt = 0 := by simpa using hcnt
      subst hc0
      have hz : chunkAux mw ([] : List α) [] 0 = [] := rfl
      refine ⟨by rw [hz]; simp, by rw [hz]; simp, ?_⟩
      rw [hz, Nat.div_eq_of_lt (by omega)]
      rfl
    | cons x b =>
      have hcnt1 : 1 ≤ cnt := by rw [hcnt]; simp
      have hcm : cnt < mw.toNat := by omega
      have hc : chunkAux mw ([] : List α) (x :: b) cnt = [x :: b] := rfl
      refine ⟨?_, ?_, ?_⟩
      · intro g hg
        rw [hc] at hg
        have hgx := List.mem_singleton.mp hg
        subst hgx
        refine ⟨by simp, ?_⟩
        rw [← hcnt]
        omega
      · intro g hg
        rw [hc] at hg
        simp at hg
      · rw [hc]
        have h3 : (cnt + 0 + mw.toNat - 1) / mw.toNat = 1 :=
          Nat.div_eq_of_lt_le (by omega) (by omega)
        rw [List.length_nil, h3]
        rfl
  | cons w ws ih =>
    intro buf cnt hcnt hlt
    by_cases h : mw ≤ ((cnt : Int) + 1)
    · have hflush : mw = (cnt : Int) + 1 := le_antisymm h (by omega)
      have ih0 := ih [] 0 rfl (by exact_mod_cast hmw)
      refine ⟨?_, ?_, ?_⟩
      · intro g hg
        simp only [chunkAux, if_pos h] at hg
        rcases List.mem_cons.mp hg with hx | hx
        · subst hx
          refine ⟨by simp, ?_⟩
          rw [hcnt] at hflush
          simp [hflush]
        · exact ih0.1 g hx
      · intro g hg
        simp only [chunkAux, if_pos h] at hg
        cases hrest : chunkAux mw ws ([] : List α) 0 with
        | nil =>
          rw [hrest] at hg
          simp at hg
        | cons r rs =>
          rw [hrest] at hg
          have hdl : ((buf ++ [w]) :: r :: rs).dropLast
              = (buf ++ [w]) :: (r :: rs).dropLast := rfl
          rw [hdl] at hg
          rcases List.mem_cons.mp hg with hx | hx
          · subst hx
            rw [hcnt] at hflush
            simp [hflush]
          · refine ih0.2.1 g ?_
            rw [hrest]
            exact hx
      · simp only [chunkAux, if_pos h, List.length_cons, ih0.2.2]
        have hmnat : mw.toNat = cnt + 1 := by omega
        have harith : cnt + (ws.length + 1) + mw.toNat - 1
            = (0 + ws.length + mw.toNat - 1) + mw.toNat := by omega
        rw [harith, Nat.add_div_right _ (by omega)]
    · have hlt2 : (((cnt : Nat) + 1 : Nat) : Int) < mw := by push_cast; omega
      have ih2 := ih (buf ++ [w]) (cnt + 1) (by simp [hcnt]) hlt2
      refine ⟨?_, ?_, ?_⟩
      · intro g hg
        simp only [chunkAux, if_neg h] at hg
        exact ih2.1 g hg
      · intro g hg
        simp only [chunkAux, if_neg h] at hg
        exact ih2.2.1 g hg
      · simp only [chunkAux, if_neg h, ih2.2.2, List.length_cons]
        congr 1
        omega

lemma chunk_group_words (text : String) (mw : Int) :
    ∀ g ∈ chunkAux mw (pySplitC text.data) [] 0,
      ∀ x ∈ g, x ≠ [] ∧ ∀ c ∈ x, isPyWS c = false := by
  intro g hg x hx
  have hxin : x ∈ (chunkAux mw (pySplitC text.data) [] 0).flatten :=
    List.mem_flatten.mpr ⟨g, hg, hx⟩
  rw [chunkAux_flatten] at hxin
  simp only [List.nil_append] at hxin
  exact pySplitC_sound text.data x hxin

/-- Claim C1 (amended): for every text and every positive limit, joining the
chunks produced by chunk_text with single spaces equals the whitespace
normalized input text; every chunk has word count at most the limit; every
chunk but possibly the last has word count exactly the limit; the chunk count
is the ceiling of the word count over the limit; and the empty text yields
zero chunks. -/
theorem chunk_text_spec (text : String) (mw : Int) (hmw : 0 < mw) :
    joinSpStr (chunk_text text mw) = normalizeText text
    ∧ (∀ c ∈ chunk_text text mw, (wordCount c : Int) ≤ mw)
    ∧ (∀ c ∈ (chunk_text text mw).dropLast, (wordCount c : Int) = mw)
    ∧ (chunk_text text mw).length = (wordCount text + mw.toNat - 1) / mw.toNat
    ∧ (text = "" → chunk_text text mw = []) := by
  have hgrp := chunkAux_groups mw hmw (pySplitC text.data) [] 0 rfl (by exact_mod_cast hmw)
  have hgood := chunk_group_words text mw
  have hne : ∀ g ∈ chunkAux mw (pySplitC text.data) [] 0, g ≠ [] :=
    fun g hg => (hgrp.1 g hg).1
  refine ⟨?_, ?_, ?_, ?_, ?_⟩
  · show String.mk (joinWith ' ' (((chunkAux mw (pySplitC text.data) [] 0).map
      (fun g => String.mk (joinWith ' ' g))).map String.data)) = normalizeText text
    rw [List.map_map]
    rw [show (String.data ∘ fun g => String.mk (joinWith ' ' g))
        = fun g : List (List Char) => joinWith ' ' g from rfl]
    rw [joinWith_map_flatten _ hne, chunkAux_flatten]
    rw [show ([] : List (List Char)) ++ pySplitC text.data = pySplitC text.data from rfl]
    rw [← normalizeC_eq_join]
    rfl
  · intro c hc
    rcases List.mem_map.mp hc with ⟨g, hg, hge⟩
    subst hge
    have hwc : wordCount (String.mk (joinWith ' ' g)) = g.length := by
      show (pySplitC (joinWith ' ' g)).length = g.length
      rw [pySplitC_joinWith g (hgood g hg)]
    rw [hwc]
    exact (hgrp.1 g hg).2
  · intro c hc
    rw [show chunk_text text mw = (chunkAux mw (pySplitC text.data) [] 0).map
      (fun g => String.mk (joinWith ' ' g)) from rfl, ← List.map_dropLast] at hc
    rcases List.mem_map.mp hc with ⟨g, hg, hge⟩
    subst hge
    have hgin : g ∈ chunkAux mw (pySplitC text.data) [] 0 := List.dropLast_subset _ hg
    have hwc : wordCount (String.mk (joinWith ' ' g)) = g.length := by
      show (pySplitC (joinWith ' ' g)).length = g.length
      rw [pySplitC_joinWith g (hgood g hgin)]
    rw [hwc]
    exact hgrp.2.1 g hg
  · show ((chunkAux mw (pySplitC text.data) [] 0).map
      (fun g => String.mk (joinWith ' ' g))).length = _
    rw [List.length_map, hgrp.2.2]
    simp [wordCount]
  · intro h
    subst h
    rfl

/-- Claim C1 counterexample: on a raw input with a double space, joining the
chunks with single spaces yields the normalized text, which differs from the
input text, so the join-equals-input conjunct of the claim fails. -/
theorem chunk_text_join_raw_cex :
    joinSpStr (chunk_text ("a  b") 10) = ("a b") ∧ ("a b" : String) ≠ ("a  b") := by
  constructor
  · rfl
  · decide

/-- Claim C1 witness at a concrete input. -/
theorem chunk_text_spec_witness :
    (0 : Int) < 2
    ∧ joinSpStr (chunk_text ("one two three") 2) = normalizeText ("one two three")
    ∧ (chunk_text ("one two three") 2).length
        = (wordCount ("one two three") + (2 : Int).toNat - 1) / (2 : Int).toNat :=
  ⟨by decide, (chunk_text_spec ("one two three") 2 (by decide)).1,
    (chunk_text_spec ("one two three") 2 (by decide)).2.2.2.1⟩

/-! Normalization properties: the normalized text is the single-space join of
its words, so its only whitespace characters are single interior spaces. -/

lemma joinWith_mem_char : ∀ (ws : List (List Char)) (c : Char), c ∈ joinWith ' ' ws →
    c = ' ' ∨ ∃ w ∈ ws, c ∈ w := by
  intro ws
  induction ws with
  | nil => intro c hc; simp [joinWith] at hc
  | cons w ws ih =>
    intro c hc
    cases ws with
    | nil =>
      right
      exact ⟨w, by simp, by simpa [joinWith] using hc⟩
    | cons w2 ws2 =>
      rw [joinWith_cons ' ' w (by simp)] at hc
      rcases List.mem_append.mp hc with h | h
      · right; exact ⟨w, by simp, h⟩
      · rcases List.mem_cons.mp h with h | h
        · left; exact h
        · rcases ih c h with h | ⟨x, hx, hcx⟩
          · left; exact h
          · right; exact ⟨x, by simp [hx], hcx⟩

lemma joinWith_head_nonws {ws : List (List Char)}
    (h : ∀ w ∈ ws, w ≠ [] ∧ ∀ c ∈ w, isPyWS c = false) :
    ∀ y ∈ (joinWith ' ' ws).head?, isPyWS y = false := by
  cases ws with
  | nil => intro y hy; simp [joinWith] at hy
  | cons w ws =>
    have hw := h w (by simp)
    rcases w with _ | ⟨d, wt⟩
    · exact absurd rfl hw.1
    intro y hy
    cases ws with
    | nil =>
      simp only [joinWith, List.head?_cons, Option.mem_def, Option.some.injEq] at hy
      subst hy
      exact hw.2 d (by simp)
    | cons w2 ws2 =>
      rw [joinWith_cons ' ' _ (by simp), List.cons_append] at hy
      simp only [List.head?_cons, Option.mem_def, Option.some.injEq] at hy
      subst hy
      exact hw.2 d (by simp)

lemma chain_word {w : List Char} (hw : ∀ c ∈ w, isPyWS c = false) :
    w.Chain' (fun a b => a ≠ ' ' ∨ b ≠ ' ') := by
  induction w with
  | nil => simp
  | cons d w ih =>
    cases w with
    | nil => simp
    | cons e w2 =>
      rw [List.chain'_cons]
      refine ⟨Or.inl ?_, ih (fun c hc => hw c (by simp [hc]))⟩
      intro hd
      exact absurd (hd ▸ hw d (by simp)) (by decide)

lemma chain_joinWith : ∀ (ws : List (List Char)),
    (∀ w ∈ ws, w ≠ [] ∧ ∀ c ∈ w, isPyWS c = false) →
    (joinWith ' ' ws).Chain' (fun a b => a ≠ ' ' ∨ b ≠ ' ') := by
  intro ws
  induction ws with
  | nil => intro _; simp [joinWith]
  | cons w ws ih =>
    intro h
    have hw := h w (by simp)
    cases ws with
    | nil => exact chain_word hw.2
    | cons w2 ws2 =>
      rw [joinWith_cons ' ' w (by simp), List.chain'_append]
      refine ⟨chain_word hw.2, ?_, ?_⟩
      · rw [List.chain'_cons']
        refine ⟨?_, ih (fun x hx => h x (by simp [hx]))⟩
        intro b hb
        have hb2 := joinWith_head_nonws (fun x hx => h x (by simp [hx])) b hb
        right
        intro hbsp
        exact absurd (hbsp ▸ hb2) (by decide)
      · intro x hx y hy
        left
        rcases List.mem_getLast?_eq_getLast hx with ⟨hne, hxl⟩
        have hxw : x ∈ w := hxl ▸ List.getLast_mem hne
        intro hxsp
        exact absurd (hxsp ▸ hw.2 x hxw) (by decide)

lemma rstrip_joinWith {ws : List (List Char)}
    (h : ∀ w ∈ ws, w ≠ [] ∧ ∀ c ∈ w, isPyWS c = false) :
    rstripC (joinWith ' ' ws) = joinWith ' ' ws := by
  induction ws with
  | nil => rfl
  | cons w ws ih =>
    have hw := h w (by simp)
    cases ws with
    | nil =>
      show rstripC (joinWith ' ' [w]) = joinWith ' ' [w]
      rw [show joinWith ' ' [w] = w from rfl]
      exact rstripC_nonws w hw.2
    | cons w2 ws2 =>
      have hrec := ih (fun x hx => h x (by simp [hx]))
      have hjne : joinWith ' ' (w2 :: ws2) ≠ [] := by
        intro hcon
        have hnil := (@joinWith_eq_nil (w2 :: ws2)
          (fun x hx => (h x (by simp [hx])).1)).mp hcon
        simp at hnil
      rw [joinWith_cons ' ' w (by simp), rstripC_append, rstripC_cons, hrec,
        if_neg hjne]
      rw [if_neg (by simp)]

/-- Claim C8: normalization output contains no whitespace other than single
spaces: every whitespace character of the normalized text is a space, it
contains no newline, no two consecutive characters are both spaces, and
further stripping of leading or trailing whitespace leaves it unchanged.  The
driver applies this transform once per document, before word counting and
chunking, which is visible in processFile where both the word count and the
chunk list are computed from normalizeText of the extracted text. -/
theorem normalization_spec (s : String) :
    (∀ c ∈ (normalizeText s).data, isPyWS c = true → c = ' ')
    ∧ ('\n' ∉ (normalizeText s).data)
    ∧ (normalizeText s).data.Chain' (fun a b => a ≠ ' ' ∨ b ≠ ' ')
    ∧ lstripC (normalizeText s).data = (normalizeText s).data
    ∧ rstripC (normalizeText s).data = (normalizeText s).data := by
  have hdata : (normalizeText s).data = joinWith ' ' (pySplitC s.data) := by
    show normalizeC s.data = _
    exact normalizeC_eq_join s.data
  have hgood := pySplitC_sound s.data
  have h1 : ∀ c ∈ (normalizeText s).data, isPyWS c = true → c = ' ' := by
    intro c hc hws
    rw [hdata] at hc
    rcases joinWith_mem_char _ c hc with h | ⟨w, hw, hcw⟩
    · exact h
    · exact absurd hws (by simp [(hgood w hw).2 c hcw])
  refine ⟨h1, ?_, ?_, ?_, ?_⟩
  · intro hmem
    have := h1 '\n' hmem (by decide)
    exact absurd this (by decide)
  · rw [hdata]
    exact chain_joinWith _ hgood
  · rw [hdata]
    exact lstrip_joinWith hgood
  · rw [hdata]
    exact rstrip_joinWith hgood

/-- Claim C9: the chunker is a pure, deterministic function of its two
arguments; the embedded chunk_text reads no state besides them, so equal
inputs give equal chunk sequences of equal length with equal elements at
every index. -/
theorem chunk_text_deterministic (t1 t2 : String) (m1 m2 : Int)
    (ht : t1 = t2) (hm : m1 = m2) :
    chunk_text t1 m1 = chunk_text t2 m2
    ∧ (chunk_text t1 m1).length = (chunk_text t2 m2).length
    ∧ ∀ i : Nat, (chunk_text t1 m1)[i]? = (chunk_text t2 m2)[i]? := by
  subst ht
  subst hm
  exact ⟨rfl, rfl, fun _ => rfl⟩

/-- Claim C9 witness at a concrete input. -/
theorem chunk_text_deterministic_witness :
    ("x y" : String) = ("x y") ∧ (2 : Int) = 2
    ∧ chunk_text ("x y") 2 = chunk_text ("x y") 2 :=
  ⟨rfl, rfl, (chunk_text_deterministic ("x y") ("x y") 2 2 rfl rfl).1⟩

/-! Driver-trace lemmas: the checker functions unfold by one event, chunk
and file segments compose, and the three cancellation properties hold for
every run with a monotone flag. -/

lemma pairedOk_read (v : Bool) (r : List Ev) :
    pairedOk (Ev.read v :: r) = pairedOk r := rfl

lemma pairedOk_started (n : String) (r : List Ev) :
    pairedOk (Ev.started n :: r) = pairedOk r := rfl

lemma pairedOk_failed (n m : String) (r : List Ev) :
    pairedOk (Ev.failed n m :: r) = pairedOk r := rfl

lemma pairedOk_appended (n : String) (i : Option Nat) (b : String) (r : List Ev) :
    pairedOk (Ev.appended n i b :: r) = pairedOk r := rfl

lemma pairedOk_disp_none (n : String) (i : Option Nat) (t : String) (r : List Ev) :
    pairedOk (Ev.dispatched n i t none :: r) = pairedOk r := rfl

lemma pairedOk_disp_pair (n : String) (i : Option Nat) (t b : String) (r : List Ev) :
    pairedOk (Ev.dispatched n i t (some b) :: Ev.appended n i b :: r) = pairedOk r := by
  show (if n = n ∧ i = i ∧ b = b then pairedOk r else false) = pairedOk r
  rw [if_pos ⟨rfl, rfl, rfl⟩]

lemma pairedOk_runChunks (infer : String → Except String String) (flag : Nat → Bool)
    (name : String) : ∀ (cs : List String) (i k : Nat) (r : List Ev),
    pairedOk ((runChunks infer flag name cs i k).1 ++ r) = pairedOk r := by
  intro cs
  induction cs with
  | nil => intro i k r; rfl
  | cons c cs ih =>
    intro i k r
    by_cases hf : flag k
    · simp only [runChunks, if_pos hf]
      rw [List.cons_append, pairedOk_read]
      rfl
    · simp only [runChunks, if_neg hf]
      cases hinf : infer c with
      | ok b =>
        simp only
        rw [List.cons_append, List.cons_append, List.cons_append, pairedOk_read,
          pairedOk_disp_pair]
        exact ih (i + 1) (k + 1) r
      | error e =>
        simp only
        rw [List.cons_append, List.cons_append, List.cons_append, pairedOk_read,
          pairedOk_disp_none, pairedOk_failed]
        rfl

lemma pairedOk_processFile (infer : String → Except String String) (flag : Nat → Bool)
    (mw : Int) (f : GFile) (k : Nat) (r : List Ev) :
    pairedOk ((processFile infer flag mw f k).1 ++ r) = pairedOk r := by
  by_cases h1 : passesFilter f.name = false
  · simp only [processFile, if_pos h1]
    rfl
  · by_cases h2 : f.text = ""
    · simp only [processFile, if_neg h1, if_pos h2]
      rw [List.cons_append, pairedOk_started]
      rfl
    · by_cases h3 : (wordCount (normalizeText f.text) : Int) ≤ mw
      · simp only [processFile, if_neg h1, if_neg h2, if_pos h3]
        cases hinf : infer (normalizeText f.text) with
        | ok b =>
          simp only
          rw [List.cons_append, List.cons_append, List.cons_append, pairedOk_started,
            pairedOk_disp_pair]
          rfl
        | error e =>
          simp only
          rw [List.cons_append, List.cons_append, List.cons_append, pairedOk_started,
            pairedOk_disp_none, pairedOk_failed]
          rfl
      · simp only [processFile, if_neg h1, if_neg h2, if_neg h3]
        rw [List.cons_append, pairedOk_started]
        exact pairedOk_runChunks infer flag f.name _ 1 k r

lemma ndf_read_false (r : List Ev) :
    noDispatchFrom (Ev.read false :: r) = noDispatchFrom r := rfl

lemma ndf_read_true (r : List Ev) :
    noDispatchFrom (Ev.read true :: r) = r.all (fun e => !isDispatchEv e) := rfl

lemma ndf_started (n : String) (r : List Ev) :
    noDispatchFrom (Ev.started n :: r) = noDispatchFrom r := rfl

lemma ndf_disp (n : String) (i : Option Nat) (t : String) (o : Option String) (r : List Ev) :
    noDispatchFrom (Ev.dispatched n i t o :: r) = noDispatchFrom r := rfl

lemma ndf_appended (n : String) (i : Option Nat) (b : String) (r : List Ev) :
    noDispatchFrom (Ev.appended n i b :: r) = noDispatchFrom r := rfl

lemma ndf_failed (n m : String) (r : List Ev) :
    noDispatchFrom (Ev.failed n m :: r) = noDispatchFrom r := rfl

lemma runFiles_all_nodisp (infer : String → Except String String) (flag : Nat → Bool)
    (mw : Int) (fs : List GFile) (k : Nat) (hk : flag k = true) :
    (runFiles infer flag mw fs k).all (fun e => !isDispatchEv e) = true := by
  cases fs with
  | nil => rfl
  | cons f fs =>
    simp only [runFiles, if_pos hk]
    rfl

lemma ndf_runChunks (infer : String → Except String String) (flag : Nat → Bool)
    (name : String) (mw : Int) (fs : List GFile)
    (hmono : ∀ i j : Nat, i ≤ j → flag i = true → flag j = true)
    (hrec : ∀ k2, noDispatchFrom (runFiles infer flag mw fs k2) = true) :
    ∀ (cs : List String) (i k : Nat),
    noDispatchFrom ((runChunks infer flag name cs i k).1
      ++ runFiles infer flag mw fs (runChunks infer flag name cs i k).2) = true := by
  intro cs
  induction cs with
  | nil => intro i k; exact hrec k
  | cons c cs ih =>
    intro i k
    by_cases hf : flag k
    · simp only [runChunks, if_pos hf]
      rw [List.cons_append, List.nil_append, ndf_read_true]
      exact runFiles_all_nodisp infer flag mw fs (k + 1)
        (hmono k (k + 1) (by omega) hf)
    · simp only [runChunks, if_neg hf]
      cases hinf : infer c with
      | ok b =>
        simp only
        rw [List.cons_append, List.cons_append, List.cons_append, ndf_read_false,
          ndf_disp, ndf_appended]
        exact ih (i + 1) (k + 1)
      | error e =>
        simp only
        rw [List.cons_append, List.cons_append, List.cons_append, List.nil_append,
          ndf_read_false, ndf_disp, ndf_failed]
        exact hrec (k + 1)

lemma ndf_processFile (infer : String → Except String String) (flag : Nat → Bool)
    (mw : Int) (fs : List GFile) (f : GFile) (k : Nat)
    (hmono : ∀ i j : Nat, i ≤ j → flag i = true → flag j = true)
    (hrec : ∀ k2, noDispatchFrom (runFiles infer flag mw fs k2) = true) :
    noDispatchFrom ((processFile infer flag mw f k).1
      ++ runFiles infer flag mw fs (processFile infer flag mw f k).2) = true := by
  by_cases h1 : passesFilter f.name = false
  · simp only [processFile, if_pos h1]
    rw [List.nil_append]
    exact hrec k
  · by_cases h2 : f.text = ""
    · simp only [processFile, if_neg h1, if_pos h2]
      rw [List.cons_append, List.nil_append, ndf_started]
      exact hrec k
    · by_cases h3 : (wordCount (normalizeText f.text) : Int) ≤ mw
      · simp only [processFile, if_neg h1, if_neg h2, if_pos h3]
        cases hinf : infer (normalizeText f.text) with
        | ok b =>
          simp only
          rw [List.cons_append, List.cons_append, List.cons_append, List.nil_append,
            ndf_started, ndf_disp, ndf_appended]
          exact hrec k
        | error e =>
          simp only
          rw [List.cons_append, List.cons_append, List.cons_append, List.nil_append,
            ndf_started, ndf_disp, ndf_failed]
          exact hrec k
      · simp only [processFile, if_neg h1, if_neg h2, if_neg h3]
        rw [List.cons_append, ndf_started]
        exact ndf_runChunks infer flag f.name mw fs hmono hrec _ 1 k

lemma ndf_runFiles (infer : String → Except String String) (flag : Nat → Bool)
    (mw : Int) (hmono : ∀ i j : Nat, i ≤ j → flag i = true → flag j = true) :
    ∀ (fs : List GFile) (k : Nat), noDispatchFrom (runFiles infer flag mw fs k) = true := by
  intro fs
  induction fs with
  | nil => intro k; rfl
  | cons f fs ih =>
    intro k
    by_cases hf : flag k
    · simp only [runFiles, if_pos hf]
      rfl
    · simp only [runFiles, if_neg hf]
      rw [ndf_read_false]
      exact ndf_processFile infer flag mw fs f (k + 1) hmono ih

lemma pairedOk_runFiles (infer : String → Except String String) (flag : Nat → Bool)
    (mw : Int) : ∀ (fs : List GFile) (k : Nat),
    pairedOk (runFiles infer flag mw fs k) = true := by
  intro fs
  induction fs with
  | nil => intro k; rfl
  | cons f fs ih =>
    intro k
    by_cases hf : flag k
    · simp only [runFiles, if_pos hf]
      rfl
    · simp only [runFiles, if_neg hf]
      rw [pairedOk_read, pairedOk_processFile]
      exact ih _

lemma chk_read_true (r : List Ev) :
    chkStarted (Ev.read true :: r) = chkStarted r := rfl

lemma chk_disp (n : String) (i : Option Nat) (t : String) (o : Option String) (r : List Ev) :
    chkStarted (Ev.dispatched n i t o :: r) = chkStarted r := rfl

lemma chk_appended (n : String) (i : Option Nat) (b : String) (r : List Ev) :
    chkStarted (Ev.appended n i b :: r) = chkStarted r := rfl

lemma chk_failed (n m : String) (r : List Ev) :
    chkStarted (Ev.failed n m :: r) = chkStarted r := rfl

lemma chk_rf_started (n : String) (r : List Ev) :
    chkStarted (Ev.read false :: Ev.started n :: r) = chkStarted r := rfl

lemma chk_rf_read (v : Bool) (r : List Ev) :
    chkStarted (Ev.read false :: Ev.read v :: r) = chkStarted (Ev.read v :: r) := rfl

lemma chk_rf_nil : chkStarted [Ev.read false] = true := rfl

lemma chk_runChunks (infer : String → Except String String) (flag : Nat → Bool)
    (name : String) : ∀ (cs : List String) (i k : Nat) (r : List Ev),
    chkStarted ((runChunks infer flag name cs i k).1 ++ r) = chkStarted r := by
  intro cs
  induction cs with
  | nil => intro i k r; rfl
  | cons c cs ih =>
    intro i k r
    by_cases hf : flag k
    · simp only [runChunks, if_pos hf]
      rw [List.cons_append, List.nil_append, chk_read_true]
    · simp only [runChunks, if_neg hf]
      cases hinf : infer c with
      | ok b =>
        simp only
        rw [List.cons_append, List.cons_append, List.cons_append]
        rw [show chkStarted (Ev.read false :: Ev.dispatched name (some i) c (some b) ::
          Ev.appended name (some i) b :: ((runChunks infer flag name cs (i + 1) (k + 1)).1 ++ r))
          = chkStarted (Ev.dispatched name (some i) c (some b) ::
            Ev.appended name (some i) b :: ((runChunks infer flag name cs (i + 1) (k + 1)).1 ++ r))
          from rfl]
        rw [chk_disp, chk_appended]
        exact ih (i + 1) (k + 1) r
      | error e =>
        simp only
        rw [List.cons_append, List.cons_append, List.cons_append, List.nil_append]
        rw [show chkStarted (Ev.read false :: Ev.dispatched name (some i) c none ::
          Ev.failed name e :: r)
          = chkStarted (Ev.dispatched name (some i) c none :: Ev.failed name e :: r) from rfl]
        rw [chk_disp, chk_failed]

lemma chk_read_false_runFiles (infer : String → Except String String) (flag : Nat → Bool)
    (mw : Int) (fs : List GFile) (k : Nat) :
    chkStarted (Ev.read false :: runFiles infer flag mw fs k)
      = chkStarted (runFiles infer flag mw fs k) := by
  cases fs with
  | nil => rfl
  | cons f fs =>
    by_cases hf : flag k
    · simp only [runFiles, if_pos hf]
      rfl
    · simp only [runFiles, if_neg hf]
      rfl

lemma chk_runFiles (infer : String → Except String String) (flag : Nat → Bool)
    (mw : Int) : ∀ (fs : List GFile) (k : Nat),
    chkStarted (runFiles infer flag mw fs k) = true := by
  intro fs
  induction fs with
  | nil => intro k; rfl
  | cons f fs ih =>
    intro k
    by_cases hf : flag k
    · simp only [runFiles, if_pos hf]
      rfl
    · simp only [runFiles, if_neg hf]
      by_cases h1 : passesFilter f.name = false
      · simp only [processFile, if_pos h1]
        rw [List.nil_append, chk_read_false_runFiles]
        exact ih _
      · by_cases h2 : f.text = ""
        · simp only [processFile, if_neg h1, if_pos h2]
          rw [List.cons_append, List.nil_append, chk_rf_started]
          exact ih _
        · by_cases h3 : (wordCount (normalizeText f.text) : Int) ≤ mw
          · simp only [processFile, if_neg h1, if_neg h2, if_pos h3]
            cases hinf : infer (normalizeText f.text) with
            | ok b =>
              simp only
              rw [List.cons_append, List.cons_append, List.cons_append, List.nil_append,
                chk_rf_started, chk_disp, chk_appended]
              exact ih _
            | error e =>
              simp only
              rw [List.cons_append, List.cons_append, List.cons_append, List.nil_append,
                chk_rf_started, chk_disp, chk_failed]
              exact ih _
          · simp only [processFile, if_neg h1, if_neg h2, if_neg h3]
            rw [List.cons_append, chk_rf_started, chk_runChunks]
            exact ih _

/-- Claim C4: for every run whose cancellation flag is monotone (once set it
stays set), the trace of process_documents contains no dispatch after any
read of a set flag (so no further file begins and no further chunk is
dispatched once the flag is set; the flag is read before each enumerated
entry and before each chunk), every dispatch whose client call returned is
immediately followed by its appended output record (so cancellation never
removes or prevents the record of an already dispatched unit), and every
started file is immediately preceded by a read of an unset flag. -/
theorem cancellation_spec (infer : String → Except String String) (flag : Nat → Bool)
    (mw : Int) (entries : List GFile)
    (hmono : ∀ i j : Nat, i ≤ j → flag i = true → flag j = true) :
    noDispatchFrom (process_documents infer flag mw entries) = true
    ∧ pairedOk (process_documents infer flag mw entries) = true
    ∧ chkStarted (process_documents infer flag mw entries) = true :=
  ⟨ndf_runFiles infer flag mw hmono _ 0,
   pairedOk_runFiles infer flag mw _ 0,
   chk_runFiles infer flag mw _ 0⟩

/-- Claim C4 witness: a concrete run of two files with a flag that becomes
set from the third checkpoint on. -/
theorem cancellation_spec_witness :
    (∀ i j : Nat, i ≤ j → (fun n => decide (2 ≤ n)) i = true
        → (fun n => decide (2 ≤ n)) j = true)
    ∧ (noDispatchFrom (process_documents (fun s => Except.ok ("R"))
          (fun n => decide (2 ≤ n)) 1 [⟨("a.txt"), ("w1 w2 w3")⟩, ⟨("b.txt"), ("x")⟩]) = true
      ∧ pairedOk (process_documents (fun s => Except.ok ("R"))
          (fun n => decide (2 ≤ n)) 1 [⟨("a.txt"), ("w1 w2 w3")⟩, ⟨("b.txt"), ("x")⟩]) = true
      ∧ chkStarted (process_documents (fun s => Except.ok ("R"))
          (fun n => decide (2 ≤ n)) 1 [⟨("a.txt"), ("w1 w2 w3")⟩, ⟨("b.txt"), ("x")⟩]) = true) := by
  have hmono : ∀ i j : Nat, i ≤ j → (fun n => decide (2 ≤ n)) i = true
      → (fun n => decide (2 ≤ n)) j = true := by
    intro i j hij hi
    simp only [decide_eq_true_eq] at hi ⊢
    omega
  exact ⟨hmono, cancellation_spec (fun s => Except.ok ("R")) (fun n => decide (2 ≤ n)) 1
    [⟨("a.txt"), ("w1 w2 w3")⟩, ⟨("b.txt"), ("x")⟩] hmono⟩

/-! Per-file unit lemmas for the single-shot versus chunked decision. -/

lemma units_read (v : Bool) (r : List Ev) : unitsOf (Ev.read v :: r) = unitsOf r := rfl

lemma units_started (n : String) (r : List Ev) :
    unitsOf (Ev.started n :: r) = unitsOf r := rfl

lemma units_disp (n : String) (i : Option Nat) (t : String) (o : Option String)
    (r : List Ev) : unitsOf (Ev.dispatched n i t o :: r) = (n, i) :: unitsOf r := rfl

lemma units_appended (n : String) (i : Option Nat) (b : String) (r : List Ev) :
    unitsOf (Ev.appended n i b :: r) = unitsOf r := rfl

lemma texts_read (v : Bool) (r : List Ev) :
    dispatchTexts (Ev.read v :: r) = dispatchTexts r := rfl

lemma texts_started (n : String) (r : List Ev) :
    dispatchTexts (Ev.started n :: r) = dispatchTexts r := rfl

lemma texts_disp (n : String) (i : Option Nat) (t : String) (o : Option String)
    (r : List Ev) : dispatchTexts (Ev.dispatched n i t o :: r) = t :: dispatchTexts r := rfl

lemma texts_appended (n : String) (i : Option Nat) (b : String) (r : List Ev) :
    dispatchTexts (Ev.appended n i b :: r) = dispatchTexts r := rfl

lemma units_runChunks (infer : String → Except String String) (flag : Nat → Bool)
    (name : String) (hok : ∀ s, ∃ b, infer s = Except.ok b)
    (hflag : ∀ j, flag j = false) :
    ∀ (cs : List String) (i k : Nat),
    unitsOf (runChunks infer flag name cs i k).1
      = (List.range' i cs.length).map (fun j => (name, some j))
    ∧ dispatchTexts (runChunks infer flag name cs i k).1 = cs := by
  intro cs
  induction cs with
  | nil => intro i k; exact ⟨rfl, rfl⟩
  | cons c cs ih =>
    intro i k
    obtain ⟨b, hb⟩ := hok c
    have hstep : runChunks infer flag name (c :: cs) i k
        = (Ev.read false :: Ev.dispatched name (some i) c (some b) ::
            Ev.appended name (some i) b :: (runChunks infer flag name cs (i + 1) (k + 1)).1,
           (runChunks infer flag name cs (i + 1) (k + 1)).2) := by
      simp [runChunks, hflag k, hb]
    rw [hstep]
    constructor
    · rw [units_read, units_disp, units_appended, (ih (i + 1) (k + 1)).1,
        List.length_cons, List.range'_succ, List.map_cons]
    · rw [texts_read, texts_disp, texts_appended, (ih (i + 1) (k + 1)).2]

/-- Claim C6: for a selected file with nonempty extracted text, if the
normalized word count is at most max_words (including exactly max_words) the
driver dispatches the whole document as one unit with no chunk index and unit
text equal to the normalized text; if the word count strictly exceeds
max_words and the client returns with no cancellation, the dispatched units
are exactly chunks 1 through the chunk count in increasing order, with unit
texts equal to the chunk list. -/
theorem whole_vs_chunk (f : GFile) (mw : Int) (k : Nat)
    (infer : String → Except String String) (flag : Nat → Bool)
    (hpass : passesFilter f.name = true) (htext : f.text ≠ "") :
    ((wordCount (normalizeText f.text) : Int) ≤ mw →
      unitsOf (processFile infer flag mw f k).1 = [(f.name, none)]
      ∧ dispatchTexts (processFile infer flag mw f k).1 = [normalizeText f.text])
    ∧ (mw < (wordCount (normalizeText f.text) : Int) →
      (∀ s, ∃ b, infer s = Except.ok b) → (∀ j, flag j = false) →
      unitsOf (processFile infer flag mw f k).1
        = (List.range' 1 (chunk_text (normalizeText f.text) mw).length).map
            (fun j => (f.name, some j))
      ∧ dispatchTexts (processFile infer flag mw f k).1
        = chunk_text (normalizeText f.text) mw) := by
  have h1 : ¬ passesFilter f.name = false := by simp [hpass]
  constructor
  · intro h3
    simp only [processFile, if_neg h1, if_neg htext, if_pos h3]
    cases hinf : infer (normalizeText f.text) with
    | ok b => exact ⟨rfl, rfl⟩
    | error e => exact ⟨rfl, rfl⟩
  · intro h3 hok hflag
    have h3n : ¬ ((wordCount (normalizeText f.text) : Int) ≤ mw) := by omega
    simp only [processFile, if_neg h1, if_neg htext, if_neg h3n]
    have hu := units_runChunks infer flag f.name hok hflag
      (chunk_text (normalizeText f.text) mw) 1 k
    exact ⟨by rw [units_started]; exact hu.1, by rw [texts_started]; exact hu.2⟩

/-- Claim C6 witness: the exact-limit boundary document goes single-shot, and
a strictly oversized document is dispatched as chunks 1 and following. -/
theorem whole_vs_chunk_witness :
    (unitsOf (processFile (fun _ => Except.ok ("R")) (fun _ => false) 2
        ⟨("a.txt"), ("w1 w2")⟩ 0).1 = [(("a.txt" : String), (none : Option Nat))]
      ∧ dispatchTexts (processFile (fun _ => Except.ok ("R")) (fun _ => false) 2
        ⟨("a.txt"), ("w1 w2")⟩ 0).1 = [normalizeText ("w1 w2")])
    ∧ (unitsOf (processFile (fun _ => Except.ok ("R")) (fun _ => false) 1
        ⟨("b.txt"), ("x y z")⟩ 0).1
        = (List.range' 1 (chunk_text (normalizeText ("x y z")) 1).length).map
            (fun j => (("b.txt" : String), some j))
      ∧ dispatchTexts (processFile (fun _ => Except.ok ("R")) (fun _ => false) 1
        ⟨("b.txt"), ("x y z")⟩ 0).1 = chunk_text (normalizeText ("x y z")) 1) := by
  constructor
  · exact (whole_vs_chunk ⟨("a.txt"), ("w1 w2")⟩ 2 0 (fun _ => Except.ok ("R"))
      (fun _ => false) (by decide) (by decide)).1 (by decide)
  · exact (whole_vs_chunk ⟨("b.txt"), ("x y z")⟩ 1 0 (fun _ => Except.ok ("R"))
      (fun _ => false) (by decide) (by decide)).2 (by decide)
      (fun s => ⟨("R"), rfl⟩) (fun j => rfl)

lemma pySplitC_all_ws : ∀ (l : List Char), (∀ c ∈ l, isPyWS c = true) → pySplitC l = [] := by
  intro l
  induction l with
  | nil => intro _; rfl
  | cons c cs ih =>
    intro h
    show splitAux (c :: cs) [] = []
    rw [splitAux_cons, if_pos (h c (by simp)), if_pos rfl]
    exact ih (fun d hd => h d (by simp [hd]))

/-- Claim C10: a document whose raw extracted text is nonempty but all
whitespace is not skipped (the skip check reads the raw text before
normalization); it normalizes to the empty string with word count zero, is
dispatched as one single-shot unit with empty text payload, and one output
record is appended for it. -/
theorem whitespace_only_document (f : GFile) (mw : Int) (k : Nat)
    (infer : String → Except String String) (flag : Nat → Bool) (r : String)
    (hpass : passesFilter f.name = true) (htext : f.text ≠ "")
    (hws : ∀ c ∈ f.text.data, isPyWS c = true) (hmw : 0 ≤ mw)
    (hinf : infer ("") = Except.ok r) :
    normalizeText f.text = ("")
    ∧ wordCount (normalizeText f.text) = 0
    ∧ processFile infer flag mw f k
      = ([Ev.started f.name, Ev.dispatched f.name none ("") (some r),
          Ev.appended f.name none r], k) := by
  have hsplit : pySplitC f.text.data = [] := pySplitC_all_ws f.text.data hws
  have hnorm : normalizeText f.text = ("") := by
    show String.mk (normalizeC f.text.data) = ("")
    rw [normalizeC_eq_join, hsplit]
    rfl
  have hwc : wordCount (normalizeText f.text) = 0 := by rw [hnorm]; rfl
  refine ⟨hnorm, hwc, ?_⟩
  have h1 : ¬ passesFilter f.name = false := by simp [hpass]
  have hle : (wordCount (normalizeText f.text) : Int) ≤ mw := by
    rw [hwc]
    exact_mod_cast hmw
  simp only [processFile, if_neg h1, if_neg htext, if_pos hle]
  rw [hnorm, hinf]

/-- Claim C10 witness: a one-space text file. -/
theorem whitespace_only_document_witness :
    normalizeText (" ") = ("")
    ∧ wordCount (normalizeText (" ")) = 0
    ∧ processFile (fun _ => Except.ok ("R")) (fun _ => false) 3000 ⟨("w.txt"), (" ")⟩ 0
      = ([Ev.started ("w.txt"), Ev.dispatched ("w.txt") none ("") (some ("R")),
          Ev.appended ("w.txt") none ("R")], 0) :=
  whitespace_only_document ⟨("w.txt"), (" ")⟩ 3000 0 (fun _ => Except.ok ("R"))
    (fun _ => false) ("R") (by decide) (by decide) (by decide) (by decide) rfl

/-! Run-continuation lemmas: the names of started files in a never-cancelled
run are exactly the enumerated names passing the filter, whatever the client
returns. -/

lemma sn_read (v : Bool) (r : List Ev) :
    startedNames (Ev.read v :: r) = startedNames r := rfl

lemma sn_started (n : String) (r : List Ev) :
    startedNames (Ev.started n :: r) = n :: startedNames r := rfl

lemma sn_disp (n : String) (i : Option Nat) (t : String) (o : Option String)
    (r : List Ev) : startedNames (Ev.dispatched n i t o :: r) = startedNames r := rfl

lemma sn_appended (n : String) (i : Option Nat) (b : String) (r : List Ev) :
    startedNames (Ev.appended n i b :: r) = startedNames r := rfl

lemma sn_failed (n m : String) (r : List Ev) :
    startedNames (Ev.failed n m :: r) = startedNames r := rfl

lemma sn_runChunks (infer : String → Except String String) (flag : Nat → Bool)
    (name : String) : ∀ (cs : List String) (i k : Nat),
    startedNames (runChunks infer flag name cs i k).1 = [] := by
  intro cs
  induction cs with
  | nil => intro i k; rfl
  | cons c cs ih =>
    intro i k
    by_cases hf : flag k
    · simp only [runChunks, if_pos hf]
      rfl
    · simp only [runChunks, if_neg hf]
      cases hinf : infer c with
      | ok b =>
        simp only
        rw [sn_read, sn_disp, sn_appended]
        exact ih (i + 1) (k + 1)
      | error e =>
        simp only
        rw [sn_read, sn_disp, sn_failed]
        rfl

lemma sn_processFile (infer : String → Except String String) (flag : Nat → Bool)
    (mw : Int) (f : GFile) (k : Nat) :
    startedNames (processFile infer flag mw f k).1
      = if passesFilter f.name then [f.name] else [] := by
  by_cases h1 : passesFilter f.name = false
  · simp only [processFile, if_pos h1, h1]
    rfl
  · have hp : passesFilter f.name = true := by
      cases hx : passesFilter f.name
      · exact absurd hx h1
      · rfl
    rw [if_pos hp]
    by_cases h2 : f.text = ""
    · simp only [processFile, if_neg h1, if_pos h2]
      rfl
    · by_cases h3 : (wordCount (normalizeText f.text) : Int) ≤ mw
      · simp only [processFile, if_neg h1, if_neg h2, if_pos h3]
        cases hinf : infer (normalizeText f.text) with
        | ok b => rfl
        | error e => rfl
      · simp only [processFile, if_neg h1, if_neg h2, if_neg h3]
        rw [sn_started, sn_runChunks]

lemma sn_runFiles (infer : String → Except String String) (flag : Nat → Bool)
    (mw : Int) (hflag : ∀ j : Nat, flag j = false) : ∀ (fs : List GFile) (k : Nat),
    startedNames (runFiles infer flag mw fs k)
      = (fs.filter (fun f => passesFilter f.name)).map (fun f => f.name) := by
  intro fs
  induction fs with
  | nil => intro k; rfl
  | cons f fs ih =>
    intro k
    simp only [runFiles, hflag k, Bool.false_eq_true, if_false]
    rw [sn_read]
    show startedNames ((processFile infer flag mw f (k + 1)).1
      ++ runFiles infer flag mw fs (processFile infer flag mw f (k + 1)).2) = _
    rw [show startedNames ((processFile infer flag mw f (k + 1)).1
        ++ runFiles infer flag mw fs (processFile infer flag mw f (k + 1)).2)
      = startedNames (processFile infer flag mw f (k + 1)).1
        ++ startedNames (runFiles infer flag mw fs (processFile infer flag mw f (k + 1)).2)
      from List.filterMap_append _ _ _]
    rw [sn_processFile, ih, List.filter_cons]
    by_cases hp : passesFilter f.name
    · rw [if_pos hp, if_pos hp, List.map_cons]
      rfl
    · rw [if_neg hp, if_neg hp]
      rfl

/-- Claim C3 (amended): the inference client turns a connection failure, a
non-success status (400 to 599), and a non-JSON body into a returned
human-readable error string prefixed with an error marker; a returned string
is always appended as the body of the unit's output record (the pairing
property of every trace) and the run visits every enumerated file regardless
of what the client returns.  The exception is a well-formed JSON body missing
the response field, where the client raises instead; see the
counterexample. -/
theorem inference_error_handling
    (transport : OllamaRequest → HttpOutcome)
    (text prompt url model : String) (temperature : Float) (apiKey : Option String) :
    (∀ m, transport (ollamaRequest text prompt url model temperature apiKey)
        = HttpOutcome.requestError m →
      process_text_with_ollama transport text prompt url model temperature apiKey
        = Except.ok (("Error processing chunk: ") ++ m))
    ∧ (∀ st body, transport (ollamaRequest text prompt url model temperature apiKey)
        = HttpOutcome.response st body → 400 ≤ st → st ≤ 599 →
      process_text_with_ollama transport text prompt url model temperature apiKey
        = Except.ok (("Error processing chunk: ") ++ statusMessage st))
    ∧ (∀ st, transport (ollamaRequest text prompt url model temperature apiKey)
        = HttpOutcome.response st none → ¬ (400 ≤ st ∧ st ≤ 599) →
      process_text_with_ollama transport text prompt url model temperature apiKey
        = Except.ok (("Error processing chunk: ") ++ jsonDecodeMessage))
    ∧ (∀ (infer : String → Except String String) (flag : Nat → Bool) (mw : Int)
        (entries : List GFile),
      pairedOk (process_documents infer flag mw entries) = true)
    ∧ (∀ (infer : String → Except String String) (flag : Nat → Bool) (mw : Int)
        (entries : List GFile), (∀ j : Nat, flag j = false) →
      startedNames (process_documents infer flag mw entries)
        = ((entries.filter (fun f => globStarDotStar f.name)).filter
            (fun f => passesFilter f.name)).map (fun f => f.name)) := by
  refine ⟨?_, ?_, ?_, ?_, ?_⟩
  · intro m h
    simp only [process_text_with_ollama, h]
  · intro st body h h4 h5
    simp only [process_text_with_ollama, h, if_pos (And.intro h4 h5)]
  · intro st h hne
    simp only [process_text_with_ollama, h, if_neg hne]
  · intro infer flag mw entries
    exact pairedOk_runFiles infer flag mw _ 0
  · intro infer flag mw entries hflag
    exact sn_runFiles infer flag mw hflag _ 0

/-- Claim C3 counterexample: on a 200 response whose JSON body is an object
without the response field, the client raises a KeyError instead of
returning an error string, and a raising client leaves the unit with no
output record. -/
theorem inference_keyerror_cex :
    process_text_with_ollama (fun _ => HttpOutcome.response 200 (some [(("foo"), ("bar"))]))
      ("t") ("p") ("u") ("m") 0.6 none = Except.error keyErrorMessage
    ∧ appendsOf (processFile (fun _ => Except.error keyErrorMessage) (fun _ => false)
        3000 ⟨("a.txt"), ("hello")⟩ 0).1 = [] := ⟨rfl, rfl⟩

/-- Claim C3 witness: a concrete connection failure yields the error string
return. -/
theorem inference_error_handling_witness :
    process_text_with_ollama (fun _ => HttpOutcome.requestError ("connection refused"))
      ("t") ("p") ("u") ("m") 0.6 none
      = Except.ok (("Error processing chunk: ") ++ ("connection refused")) :=
  (inference_error_handling (fun _ => HttpOutcome.requestError ("connection refused"))
    ("t") ("p") ("u") ("m") 0.6 none).1 ("connection refused") rfl

lemma outputOf_init : ∀ (evs : List Ev) (init : String),
    outputOf init evs = init ++ outputOf ("") evs := by
  intro evs
  induction evs with
  | nil => intro init; simp [outputOf]
  | cons e evs ih =>
    intro init
    cases e with
    | appended n i b =>
      show outputOf (init ++ recordHeader n i ++ b) evs
        = init ++ outputOf (("" : String) ++ recordHeader n i ++ b) evs
      rw [ih (init ++ recordHeader n i ++ b),
        ih (("" : String) ++ recordHeader n i ++ b)]
      rw [String.empty_append, String.append_assoc, String.append_assoc,
        String.append_assoc]
    | read v =>
      show outputOf init evs = init ++ outputOf ("") evs
      exact ih init
    | started n =>
      show outputOf init evs = init ++ outputOf ("") evs
      exact ih init
    | dispatched n i t o =>
      show outputOf init evs = init ++ outputOf ("") evs
      exact ih init
    | failed n m =>
      show outputOf init evs = init ++ outputOf ("") evs
      exact ih init

/-- Claim C2 (amended): the GUI run truncates out.txt once at the start of
the run, before any inference call, so its final content never depends on
the previous content; the command-line run only ensures the file exists
(touch with exist_ok), so any previous content remains as a prefix of the
new run's output file. -/
theorem output_truncation (prev : Option String)
    (infer : String → Except String String) (flag : Nat → Bool)
    (mw : Int) (entries : List GFile) :
    guiRunOutput prev infer flag mw entries = guiRunOutput none infer flag mw entries
    ∧ (∀ s : String, cliRunOutput (some s) infer mw entries
        = s ++ cliRunOutput none infer mw entries) := by
  constructor
  · rfl
  · intro s
    show outputOf s (process_documents infer (fun _ => false) mw entries)
      = s ++ outputOf ((none : Option String).getD (""))
          (process_documents infer (fun _ => false) mw entries)
    rw [outputOf_init]
    rfl

/-- Claim C2 counterexample: a command-line run over a directory with no
eligible file leaves the previous content of out.txt in place, so the output
file is not truncated at the start of the run. -/
theorem output_truncation_cex :
    cliRunOutput (some ("OLD")) (fun _ => Except.ok ("R")) 3000 [] = ("OLD")
    ∧ ("OLD" : String) ≠ ("") := ⟨rfl, by decide⟩

/-- Claim C5 (amended): the GUI rejects a non-numeric chunk size and rejects
a missing directory, prompt, model or API URL before the run starts; but a
parsed max_words that is zero or negative is accepted, the run starts, and
an accepted nonpositive limit reaches the chunker, since any document with
at least one word exceeds it and takes the chunked path. -/
theorem config_validation (g : GuiInputs) :
    (pyInt g.maxWordsStr = none → start_processing g = none)
    ∧ (g.targetDir = "" → start_processing g = none)
    ∧ (pyStrip g.promptRaw = "" → start_processing g = none)
    ∧ (g.model = "" → start_processing g = none)
    ∧ (g.apiUrl = "" → start_processing g = none)
    ∧ (∀ mw : Int, pyInt g.maxWordsStr = some mw → g.targetDir ≠ "" →
        pyStrip g.promptRaw ≠ "" → g.model ≠ "" → g.apiUrl ≠ "" →
        start_processing g = some ⟨g.targetDir, pyStrip g.promptRaw, mw, g.model, g.apiUrl⟩)
    ∧ (∀ (f : GFile) (mw : Int) (k : Nat)
        (infer : String → Except String String) (flag : Nat → Bool),
        passesFilter f.name = true → f.text ≠ "" → mw ≤ 0 →
        1 ≤ wordCount (normalizeText f.text) →
        processFile infer flag mw f k
          = (Ev.started f.name
              :: (runChunks infer flag f.name (chunk_text (normalizeText f.text) mw) 1 k).1,
             (runChunks infer flag f.name (chunk_text (normalizeText f.text) mw) 1 k).2)) := by
  refine ⟨?_, ?_, ?_, ?_, ?_, ?_, ?_⟩
  · intro h
    simp only [start_processing, h]
  · intro h
    simp only [start_processing, h]
    cases pyInt g.maxWordsStr with
    | none => rfl
    | some mw => simp
  · intro h
    simp only [start_processing, h]
    cases pyInt g.maxWordsStr with
    | none => rfl
    | some mw => simp
  · intro h
    simp only [start_processing, h]
    cases pyInt g.maxWordsStr with
    | none => rfl
    | some mw => simp
  · intro h
    simp only [start_processing, h]
    cases pyInt g.maxWordsStr with
    | none => rfl
    | some mw => simp
  · intro mw hmw h1 h2 h3 h4
    simp only [start_processing, hmw]
    rw [if_neg (by simp [h1, h2, h3, h4])]
  · intro f mw k infer flag hpass htext hmw hwc
    have h1 : ¬ passesFilter f.name = false := by simp [hpass]
    have h3 : ¬ ((wordCount (normalizeText f.text) : Int) ≤ mw) := by
      have : (1 : Int) ≤ (wordCount (normalizeText f.text) : Int) := by exact_mod_cast hwc
      omega
    simp only [processFile, if_neg h1, if_neg htext, if_neg h3]

/-- Claim C5 counterexample: a configuration whose Max Words field parses to
zero passes validation and the run starts, so a nonpositive chunk limit is
not rejected. -/
theorem config_validation_cex :
    (start_processing ⟨("d"), ("p"), ("0"), ("m"), ("u")⟩).isSome = true
    ∧ start_processing ⟨("d"), ("p"), ("0"), ("m"), ("u")⟩
        = some ⟨("d"), ("p"), 0, ("m"), ("u")⟩ := ⟨rfl, rfl⟩

/-- Claim C5 witness: a non-numeric chunk size is rejected, a complete
configuration is accepted, and an accepted zero limit drives a one-word file
into the chunked path. -/
theorem config_validation_witness :
    (start_processing ⟨("d"), ("p"), ("abc"), ("m"), ("u")⟩ = none)
    ∧ (start_processing ⟨("d"), ("p"), ("7"), ("m"), ("u")⟩
        = some ⟨("d"), ("p"), 7, ("m"), ("u")⟩)
    ∧ (processFile (fun _ => Except.ok ("R")) (fun _ => false) 0 ⟨("a.txt"), ("hi")⟩ 0
        = (Ev.started ("a.txt")
            :: (runChunks (fun _ => Except.ok ("R")) (fun _ => false) ("a.txt")
                (chunk_text (normalizeText ("hi")) 0) 1 0).1,
           (runChunks (fun _ => Except.ok ("R")) (fun _ => false) ("a.txt")
                (chunk_text (normalizeText ("hi")) 0) 1 0).2)) := by
  refine ⟨?_, ?_, ?_⟩
  · exact (config_validation ⟨("d"), ("p"), ("abc"), ("m"), ("u")⟩).1 (by decide)
  · exact (config_validation ⟨("d"), ("p"), ("7"), ("m"), ("u")⟩).2.2.2.2.2.1 7 (by decide)
      (by decide) (by decide) (by decide) (by decide)
  · exact (config_validation ⟨("d"), ("p"), ("7"), ("m"), ("u")⟩).2.2.2.2.2.2
      ⟨("a.txt"), ("hi")⟩ 0 0 (fun _ => Except.ok ("R")) (fun _ => false)
      (by decide) (by decide) (by decide) (by decide)

/-! Enumeration lemmas: the code-side filter (pathlib suffix, lowercased,
membership in the four extensions) agrees with the spec-side predicate
(name ends with one of the extensions case-insensitively, with a nonempty
stem), and a supported extension forces a dot in the name, so the glob
pattern never excludes a supported entry. -/

lemma pySuffixC_branch_nil (l : List Char)
    (h : l.reverse.dropWhile (fun c => c != '.') = []) : pySuffixC l = [] := by
  simp only [pySuffixC, h]

lemma pySuffixC_branch_cons (l : List Char) (d : Char) (rr : List Char)
    (h : l.reverse.dropWhile (fun c => c != '.') = d :: rr) :
    pySuffixC l = if l.reverse.takeWhile (fun c => c != '.') = [] ∨ rr = [] then []
      else '.' :: (l.reverse.takeWhile (fun c => c != '.')).reverse := by
  simp only [pySuffixC, h]

lemma lower_dot : lowerChar '.' = '.' := by decide

lemma ofNat_toNat_lower (m : Nat) (h1 : 97 ≤ m) (h2 : m ≤ 122) :
    (Char.ofNat m).toNat = m := by
  interval_cases m <;> decide

lemma lower_eq_dot {c : Char} (h : lowerChar c = '.') : c = '.' := by
  by_cases hr : 65 ≤ c.toNat ∧ c.toNat ≤ 90
  · exfalso
    rw [lowerChar, if_pos hr] at h
    have h46 : (Char.ofNat (c.toNat + 32)).toNat = ('.' : Char).toNat := by rw [h]
    rw [ofNat_toNat_lower (c.toNat + 32) (by omega) (by omega)] at h46
    have hdotnat : ('.' : Char).toNat = 46 := by decide
    omega
  · rwa [lowerChar, if_neg hr] at h

lemma dropWhile_cons_eq {p : Char → Bool} : ∀ (l : List Char) (x : Char) (xs : List Char),
    l.dropWhile p = x :: xs → p x = false := by
  intro l
  induction l with
  | nil => intro x xs h; simp at h
  | cons c cs ih =>
    intro x xs h
    by_cases hp : p c
    · rw [List.dropWhile_cons_of_pos hp] at h
      exact ih x xs h
    · rw [List.dropWhile_cons_of_neg hp] at h
      obtain ⟨rfl, -⟩ := List.cons.inj h
      simpa using hp

lemma map_eq_append_split {f : Char → Char} : ∀ (a l b : List Char),
    l.map f = a ++ b → ∃ l1 l2, l = l1 ++ l2 ∧ l1.map f = a ∧ l2.map f = b := by
  intro a
  induction a with
  | nil => intro l b h; exact ⟨[], l, by simp, rfl, by simpa using h⟩
  | cons x a ih =>
    intro l b h
    cases l with
    | nil => simp at h
    | cons c cs =>
      rw [List.map_cons, List.cons_append] at h
      obtain ⟨h1, h2⟩ := List.cons.inj h
      obtain ⟨l1, l2, hl, hm1, hm2⟩ := ih cs b h2
      refine ⟨c :: l1, l2, by rw [hl, List.cons_append], ?_, hm2⟩
      rw [List.map_cons, hm1, h1]

lemma suffix_ci_iff (l t : List Char) (ht : t ≠ []) (hd : ('.' : Char) ∉ t) :
    ((pySuffixC l).map lowerChar = '.' :: t)
    ↔ ((t.reverse ++ ['.']) <+: (l.reverse.map lowerChar)
        ∧ t.length + 1 < l.length) := by
  constructor
  · intro hsuf
    cases hdrop : l.reverse.dropWhile (fun c => c != '.') with
    | nil =>
      rw [pySuffixC_branch_nil l hdrop] at hsuf
      simp at hsuf
    | cons d restRev =>
      have hdot : d = '.' := by
        simpa using dropWhile_cons_eq l.reverse d restRev hdrop
      subst hdot
      rw [pySuffixC_branch_cons l '.' restRev hdrop] at hsuf
      by_cases hcond : l.reverse.takeWhile (fun c => c != '.') = [] ∨ restRev = []
      · rw [if_pos hcond] at hsuf
        simp at hsuf
      · rw [if_neg hcond] at hsuf
        push_neg at hcond
        rw [List.map_cons, lower_dot] at hsuf
        have hmap := (List.cons.inj hsuf).2
        rw [List.map_reverse] at hmap
        have hAlow : (l.reverse.takeWhile (fun c => c != '.')).map lowerChar
            = t.reverse := by rw [← hmap, List.reverse_reverse]
        have hsplit : l.reverse
            = l.reverse.takeWhile (fun c => c != '.') ++ '.' :: restRev := by
          conv_lhs => rw [← List.takeWhile_append_dropWhile (fun c => c != '.') l.reverse]
          rw [hdrop]
        constructor
        · rw [hsplit, List.map_append, List.map_cons, lower_dot, hAlow]
          exact ⟨restRev.map lowerChar, by simp⟩
        · have hlenrev := congrArg List.length hsplit
          rw [List.length_reverse, List.length_append, List.length_cons] at hlenrev
          have hAlen : (l.reverse.takeWhile (fun c => c != '.')).length = t.length := by
            have := congrArg List.length hAlow
            simpa using this
          have hrr1 : 1 ≤ restRev.length := by
            cases restRev with
            | nil => exact absurd rfl hcond.2
            | cons a b => simp
          omega
  · rintro ⟨⟨z, hz⟩, hlen⟩
    obtain ⟨r1, r2, hr, hm1, hm2⟩ := map_eq_append_split t.reverse l.reverse ('.' :: z)
      (by rw [← hz]; simp)
    cases r2 with
    | nil => simp at hm2
    | cons c r2' =>
      rw [List.map_cons] at hm2
      obtain ⟨hc, hz2⟩ := List.cons.inj hm2
      have hcdot : c = '.' := lower_eq_dot hc
      subst hcdot
      have hr1free : ∀ x ∈ r1, (x != '.') = true := by
        intro x hx
        have hlx : lowerChar x ∈ r1.map lowerChar := List.mem_map_of_mem lowerChar hx
        rw [hm1] at hlx
        by_cases hxd : x = '.'
        · subst hxd
          rw [lower_dot] at hlx
          exact absurd (List.mem_reverse.mp hlx) hd
        · simpa using hxd
      have htake : l.reverse.takeWhile (fun c => c != '.') = r1 := by
        rw [hr, List.takeWhile_append_of_pos hr1free,
          List.takeWhile_cons_of_neg (by simp)]
        simp
      have hdrop : l.reverse.dropWhile (fun c => c != '.') = '.' :: r2' := by
        rw [hr, List.dropWhile_append_of_pos hr1free,
          List.dropWhile_cons_of_neg (by simp)]
      have hr1len : r1.length = t.length := by
        have := congrArg List.length hm1
        simpa using this
      have hr2ne : r2' ≠ [] := by
        intro hcon
        subst hcon
        have hlenrev : l.reverse.length = r1.length + 1 := by
          rw [hr]
          simp
        rw [List.length_reverse] at hlenrev
        omega
      have hr1ne : r1 ≠ [] := by
        intro hcon
        rw [hcon] at hr1len
        have : t.length = 0 := by simpa using hr1len.symm
        exact ht (List.length_eq_zero.mp this)
      have hcnd : ¬ (r1 = [] ∨ r2' = []) := by
        push_neg
        exact ⟨hr1ne, hr2ne⟩
      rw [pySuffixC_branch_cons l '.' r2' hdrop, htake, if_neg hcnd,
        List.map_cons, lower_dot, List.map_reverse, hm1]
      simp

lemma supported_one (name e : String) (t : List Char)
    (he : e.data = '.' :: t) (ht : t ≠ []) (hd : ('.' : Char) ∉ t) :
    (lowerString (pySuffix name) == e)
      = (e.data.isSuffixOf (name.data.map lowerChar)
          && decide (e.data.length < name.data.length)) := by
  have hmain := suffix_ci_iff name.data t ht hd
  rw [Bool.eq_iff_iff]
  constructor
  · intro hL
    have heq : lowerString (pySuffix name) = e := by simpa using hL
    have hdata : (pySuffixC name.data).map lowerChar = '.' :: t := by
      have hq := congrArg String.data heq
      rw [he] at hq
      exact hq
    obtain ⟨hpre, hlen⟩ := hmain.mp hdata
    rw [Bool.and_eq_true]
    constructor
    · rw [List.isSuffixOf_iff_suffix, he]
      have hpre2 : ('.' :: t).reverse <+: (name.data.map lowerChar).reverse := by
        rw [List.reverse_cons, ← List.map_reverse]
        exact hpre
      exact (List.reverse_prefix).mp (by simpa using hpre2)
    · rw [decide_eq_true_eq, he]
      simpa using hlen
  · intro hR
    rw [Bool.and_eq_true, List.isSuffixOf_iff_suffix, decide_eq_true_eq, he] at hR
    obtain ⟨hsufx, hlen⟩ := hR
    have hpre : (t.reverse ++ ['.']) <+: (name.data.reverse.map lowerChar) := by
      have := (List.reverse_prefix).mpr hsufx
      rw [List.reverse_cons] at this
      rw [List.map_reverse]
      exact this
    have hdata := hmain.mpr ⟨hpre, by simpa using hlen⟩
    have heq : lowerString (pySuffix name) = e := by
      apply String.ext
      rw [he]
      exact hdata
    simp [heq]

lemma supported_eq_spec (name : String) :
    supportedExt name = extsList.any (fun e =>
      e.data.isSuffixOf (name.data.map lowerChar)
      && decide (e.data.length < name.data.length)) := by
  have h1 := supported_one name (".txt") (['t', 'x', 't']) rfl (by decide) (by decide)
  have h2 := supported_one name (".pdf") (['p', 'd', 'f']) rfl (by decide) (by decide)
  have h3 := supported_one name (".doc") (['d', 'o', 'c']) rfl (by decide) (by decide)
  have h4 := supported_one name (".docx") (['d', 'o', 'c', 'x']) rfl (by decide) (by decide)
  simp only [supportedExt, extsList, List.contains_cons, List.contains_nil,
    List.any_cons, List.any_nil, Bool.or_false]
  rw [h1, h2, h3, h4]

lemma supported_implies_glob (n : String) (h : supportedExt n = true) :
    globStarDotStar n = true := by
  have hmem : lowerString (pySuffix n) ∈ extsList := by
    simpa [supportedExt, List.elem_iff] using h
  have hne : pySuffixC n.data ≠ [] := by
    intro hcon
    have hemp : lowerString (pySuffix n) = ("") := by
      apply String.ext
      show (pySuffixC n.data).map lowerChar = ("" : String).data
      rw [hcon]
      rfl
    rw [hemp] at hmem
    simp [extsList] at hmem
  cases hdrop : n.data.reverse.dropWhile (fun c => c != '.') with
  | nil => exact absurd (pySuffixC_branch_nil n.data hdrop) hne
  | cons d rr =>
    have hdot : d = '.' := by
      simpa using dropWhile_cons_eq n.data.reverse d rr hdrop
    subst hdot
    have hsplit : n.data.reverse
        = n.data.reverse.takeWhile (fun c => c != '.') ++ '.' :: rr := by
      conv_lhs => rw [← List.takeWhile_append_dropWhile (fun c => c != '.') n.data.reverse]
      rw [hdrop]
    have hin : ('.' : Char) ∈ n.data.reverse := by
      rw [hsplit]
      simp
    show decide (('.' : Char) ∈ n.data) = true
    rw [decide_eq_true_eq]
    exact List.mem_reverse.mp hin

lemma filter_pointwise (n : String) :
    (passesFilter n && globStarDotStar n) = specSelectsEntry n := by
  rw [passesFilter, specSelectsEntry, ← supported_eq_spec]
  by_cases hs : supportedExt n = true
  · rw [hs, supported_implies_glob n hs]
    simp
  · have hs2 : supportedExt n = false := by simpa using hs
    rw [hs2]
    simp

/-- Claim C7: the entries selected for processing are exactly those directly
enumerated entries whose extension is one of .txt, .pdf, .doc, .docx compared
case-insensitively (with a nonempty stem) and whose name is not exactly
out.txt: the glob star-dot-star pattern composed with the in-loop filter
equals the spec-side selection predicate, and a non-selected entry produces
no events at all, so no processing and no output record. -/
theorem enumeration_spec (names : List String) (f : GFile) (mw : Int) (k : Nat)
    (infer : String → Except String String) (flag : Nat → Bool) :
    (names.filter globStarDotStar).filter passesFilter = names.filter specSelectsEntry
    ∧ (passesFilter f.name = false → processFile infer flag mw f k = ([], k)) := by
  constructor
  · rw [List.filter_filter]
    exact List.filter_congr (fun n _ => filter_pointwise n)
  · intro h
    simp only [processFile, if_pos h]

/-- Claim C7 witness: a concrete directory listing with a supported file, an
uppercase-extension file, an unsupported image, the reserved output file, a
hidden file with no pathlib suffix and an extensionless name. -/
theorem enumeration_spec_witness :
    ((([("a.txt"), ("B.PDF"), ("pic.png"), ("out.txt"), (".txt"), ("README")]
        : List String).filter globStarDotStar).filter passesFilter
      = ([("a.txt"), ("B.PDF"), ("pic.png"), ("out.txt"), (".txt"), ("README")]
        : List String).filter specSelectsEntry)
    ∧ processFile (fun _ => Except.ok ("R")) (fun _ => false) 3000
        ⟨("pic.png"), ("x")⟩ 5 = ([], 5) := by
  constructor
  · exact (enumeration_spec [("a.txt"), ("B.PDF"), ("pic.png"), ("out.txt"), (".txt"),
      ("README")] ⟨("pic.png"), ("x")⟩ 3000 5 (fun _ => Except.ok ("R"))
      (fun _ => false)).1
  · exact (enumeration_spec [] ⟨("pic.png"), ("x")⟩ 3000 5 (fun _ => Except.ok ("R"))
      (fun _ => false)).2 (by decide)

/-- Claim C8 witness at a concrete input with a newline and surrounding
whitespace. -/
theorem normalization_spec_witness :
    ('\n' ∉ (normalizeText (" a \n b ")).data)
    ∧ lstripC (normalizeText (" a \n b ")).data = (normalizeText (" a \n b ")).data
    ∧ rstripC (normalizeText (" a \n b ")).data = (normalizeText (" a \n b ")).data :=
  ⟨(normalization_spec (" a \n b ")).2.1,
   (normalization_spec (" a \n b ")).2.2.2.1,
   (normalization_spec (" a \n b ")).2.2.2.2⟩

/-- Claim C2 witness: a GUI run ignores previous output content while a
command-line run keeps it as a prefix. -/
theorem output_truncation_witness :
    guiRunOutput (some ("OLD")) (fun _ => Except.ok ("R")) (fun _ => false) 3000 []
      = guiRunOutput none (fun _ => Except.ok ("R")) (fun _ => false) 3000 []
    ∧ cliRunOutput (some ("OLD")) (fun _ => Except.ok ("R")) 3000 []
      = ("OLD") ++ cliRunOutput none (fun _ => Except.ok ("R")) 3000 [] :=
  ⟨(output_truncation (some ("OLD")) (fun _ => Except.ok ("R")) (fun _ => false) 3000 []).1,
   (output_truncation (some ("OLD")) (fun _ => Except.ok ("R")) (fun _ => false) 3000 []).2
     ("OLD")⟩
